import Mathlib

/-!
Verification of the invoice-extraction app (`streamlit_app.py`).

The development shallowly embeds the program's core logic:

* a model of `json.loads` on the fragment the program exercises
  (objects, arrays, strings with escapes, integer numerals, literals);
  floating-point numerals are outside the model (numbers are `Int`),
  and `\uXXXX` escapes for surrogate code points are rejected because
  Lean's `Char` holds only unicode scalar values;
* a model of `json.dumps(..., indent=2, ensure_ascii=False)`;
* the response handling of `extract_invoice_data` (Python `str.strip`,
  ```` ```json ````-fence removal, parse, exception-to-None);
* the batch loop of `main` (success/failure counters, session-state
  store with dict upsert semantics, Python truthiness test) and the
  single-item path;
* the summary-CSV construction (`csv.DictWriter` with the eight fixed
  columns, which writes nothing at all for an empty row list).

All definitions are executable (structural recursion only), so concrete
witnesses evaluate by `rfl`/`decide`.
-/

set_option maxRecDepth 8000

/-- A parsed JSON value, as produced by the model of `json.loads`.
Numbers are modelled as integers (the program's schema uses `0` defaults;
floating point is outside the model). Objects keep their members in
source order. -/
inductive Json where
  | str : List Char → Json
  | num : Int → Json
  | bool : Bool → Json
  | null : Json
  | arr : List Json → Json
  | obj : List (List Char × Json) → Json

instance : Inhabited Json := ⟨Json.null⟩

/-- Whitespace accepted between JSON tokens by Python's `json.loads`
(its `WHITESPACE` regex: space, tab, newline, carriage return). -/
def isJsonWs (c : Char) : Bool := c == ' ' || c == '\t' || c == '\n' || c == '\r'

/-- Drop the JSON whitespace that precedes the next token. -/
def skipWs (s : List Char) : List Char := s.dropWhile isJsonWs

/-- Value of a hexadecimal digit, for `\uXXXX` escapes. -/
def hexVal (c : Char) : Option Nat :=
  if '0' ≤ c && c ≤ '9' then some (c.toNat - 48)
  else if 'a' ≤ c && c ≤ 'f' then some (c.toNat - 87)
  else if 'A' ≤ c && c ≤ 'F' then some (c.toNat - 55)
  else none

/-- Decode a single-character escape (`\"`, `\\`, `\/`, `\b`, `\f`, `\n`,
`\r`, `\t`), as `json.loads` does. -/
def escDecode (c : Char) : Option Char :=
  if c = '"' then some '"'
  else if c = '\\' then some '\\'
  else if c = '/' then some '/'
  else if c = 'b' then some (Char.ofNat 8)
  else if c = 'f' then some (Char.ofNat 12)
  else if c = 'n' then some '\n'
  else if c = 'r' then some '\r'
  else if c = 't' then some '\t'
  else none

/-- Value of a four-hex-digit escape body. -/
def hex4 (a b c d : Char) : Option Nat :=
  match hexVal a, hexVal b, hexVal c, hexVal d with
  | some va, some vb, some vc, some vd => some (((va * 16 + vb) * 16 + vc) * 16 + vd)
  | _, _, _, _ => none

/-- Parse the body of a JSON string after its opening quote, returning the
decoded characters and the input after the closing quote. Unescaped control
characters are rejected (`json.loads` is strict by default); surrogate
code points in `\uXXXX` escapes are rejected (not representable in `Char`). -/
def parseStrBody : List Char → Option (List Char × List Char)
  | [] => none
  | c :: rest =>
    if c = '"' then some ([], rest)
    else if c = '\\' then
      match rest with
      | [] => none
      | e :: rest2 =>
        if e = 'u' then
          match rest2 with
          | h1 :: h2 :: h3 :: h4 :: rest3 =>
            match hex4 h1 h2 h3 h4 with
            | some n =>
              if 55296 ≤ n && n < 57344 then none
              else (parseStrBody rest3).map (fun p => (Char.ofNat n :: p.1, p.2))
            | none => none
          | _ => none
        else
          match escDecode e with
          | some ec => (parseStrBody rest2).map (fun p => (ec :: p.1, p.2))
          | none => none
    else if c.toNat < 32 then none
    else (parseStrBody rest).map (fun p => (c :: p.1, p.2))

/-- Numeric value of a decimal digit character. -/
def digitVal (c : Char) : Nat := c.toNat - 48

/-- Fold a run of decimal digits onto an accumulator. -/
def digitsToNat (acc : Nat) (ds : List Char) : Nat :=
  ds.foldl (fun a c => a * 10 + digitVal c) acc

/-- Parse an unsigned JSON integer numeral: a maximal run of digits,
rejecting an empty run and a leading zero followed by more digits
(mirroring the `(?:0|[1-9]\d*)` integer part of Python's `NUMBER_RE`). -/
def parseNat (s : List Char) : Option (Nat × List Char) :=
  if (s.takeWhile Char.isDigit).isEmpty then none
  else if 2 ≤ (s.takeWhile Char.isDigit).length
      ∧ (s.takeWhile Char.isDigit).headD ' ' = '0' then none
  else some (digitsToNat 0 (s.takeWhile Char.isDigit), s.dropWhile Char.isDigit)

/-- Consume an expected literal tail (for `true`, `false`, `null`). -/
def stripPre : List Char → List Char → Option (List Char)
  | [], s => some s
  | _ :: _, [] => none
  | p :: ps, c :: cs => if c = p then stripPre ps cs else none

mutual

/-- Parse one JSON value. Fuel-indexed for totality; the top-level entry
point supplies `length + 1` fuel, which suffices because every recursive
call consumes at least one input character. -/
def parseVal : Nat → List Char → Option (Json × List Char)
  | 0, _ => none
  | n + 1, s =>
    match skipWs s with
    | [] => none
    | c :: r =>
      if c = '"' then (parseStrBody r).map (fun p => (Json.str p.1, p.2))
      else if c = 't' then (stripPre "rue".data r).map (fun r2 => (Json.bool true, r2))
      else if c = 'f' then (stripPre "alse".data r).map (fun r2 => (Json.bool false, r2))
      else if c = 'n' then (stripPre "ull".data r).map (fun r2 => (Json.null, r2))
      else if c = '-' then (parseNat r).map (fun p => (Json.num (-(p.1 : Int)), p.2))
      else if c.isDigit then (parseNat (c :: r)).map (fun p => (Json.num (p.1 : Int), p.2))
      else if c = '[' then
        match skipWs r with
        | [] => none
        | c2 :: r2 =>
          if c2 = ']' then some (Json.arr [], r2)
          else (parseItems n (c2 :: r2)).map (fun p => (Json.arr p.1, p.2))
      else if c = '{' then
        match skipWs r with
        | [] => none
        | c2 :: r2 =>
          if c2 = '}' then some (Json.obj [], r2)
          else (parseMembers n (c2 :: r2)).map (fun p => (Json.obj p.1, p.2))
      else none

/-- Parse the elements of a non-empty array, up to and including `]`. -/
def parseItems : Nat → List Char → Option (List Json × List Char)
  | 0, _ => none
  | n + 1, s =>
    match parseVal n s with
    | none => none
    | some (v, r) =>
      match skipWs r with
      | [] => none
      | c2 :: r2 =>
        if c2 = ',' then (parseItems n r2).map (fun p => (v :: p.1, p.2))
        else if c2 = ']' then some ([v], r2)
        else none

/-- Parse the members of a non-empty object, up to and including the
closing brace. -/
def parseMembers : Nat → List Char → Option (List (List Char × Json) × List Char)
  | 0, _ => none
  | n + 1, s =>
    match skipWs s with
    | [] => none
    | c :: r =>
      if c = '"' then
        match parseStrBody r with
        | none => none
        | some (k, r1) =>
          match skipWs r1 with
          | [] => none
          | c2 :: r2 =>
            if c2 = ':' then
              match parseVal n r2 with
              | none => none
              | some (v, r3) =>
                match skipWs r3 with
                | [] => none
                | c3 :: r4 =>
                  if c3 = ',' then (parseMembers n r4).map (fun p => ((k, v) :: p.1, p.2))
                  else if c3 = '}' then some ([(k, v)], r4)
                  else none
            else none
      else none

end

/-- Model of `json.loads`: parse one value and require only whitespace
after it, returning `none` where `json.loads` raises. -/
def parseTop (s : List Char) : Option Json :=
  match parseVal (s.length + 1) s with
  | some (v, rest) => if skipWs rest = [] then some v else none
  | none => none

/-- Input that cannot extend a just-parsed numeral: empty, or starting
with a non-digit. Every whitespace or structural character qualifies. -/
def delimOk (u : List Char) : Bool :=
  match u with
  | [] => true
  | c :: _ => !c.isDigit

/-- Extension property of the value parser at fuel `n`: appending input
that cannot extend a numeral preserves a successful parse, at any fuel
at least as large. -/
def ExtValP (n : Nat) : Prop :=
  ∀ (s : List Char) (v : Json) (r u : List Char) (m : Nat),
    parseVal n s = some (v, r) → delimOk u = true → n ≤ m →
    parseVal m (s ++ u) = some (v, r ++ u)

/-- Extension property of the array-elements parser. -/
def ExtItemsP (n : Nat) : Prop :=
  ∀ (s : List Char) (l : List Json) (r u : List Char) (m : Nat),
    parseItems n s = some (l, r) → delimOk u = true → n ≤ m →
    parseItems m (s ++ u) = some (l, r ++ u)

/-- Extension property of the object-members parser. -/
def ExtMembersP (n : Nat) : Prop :=
  ∀ (s : List Char) (l : List (List Char × Json)) (r u : List Char) (m : Nat),
    parseMembers n s = some (l, r) → delimOk u = true → n ≤ m →
    parseMembers m (s ++ u) = some (l, r ++ u)

/-- Decimal digit character for a value below ten. -/
def digitChar (d : Nat) : Char := Char.ofNat (48 + d)

/-- Decimal digits of `n` (most significant first), prepended to `acc`.
The fuel argument makes the recursion structural; fuel `n` suffices. -/
def natToCharsCore : Nat → Nat → List Char → List Char
  | 0, _, acc => acc
  | f + 1, n, acc =>
    if n = 0 then acc else natToCharsCore f (n / 10) (digitChar (n % 10) :: acc)

/-- Decimal representation of a natural number, as `str(n)` prints it. -/
def natToChars (n : Nat) : List Char :=
  if n = 0 then ['0'] else natToCharsCore n n []

/-- Decimal representation of an integer, as `json.dumps` prints it. -/
def intChars : Int → List Char
  | .ofNat n => natToChars n
  | .negSucc n => '-' :: natToChars (n + 1)

/-- Lower-case hexadecimal digit character, for `\u00xx` escapes. -/
def hexDigitChar (d : Nat) : Char :=
  if d < 10 then Char.ofNat (48 + d) else Char.ofNat (87 + d)

/-- Escape one character the way `json.dumps(..., ensure_ascii=False)` does:
quote, backslash and control characters are escaped, everything else
(including non-ASCII text) is emitted literally. -/
def escChar (c : Char) : List Char :=
  if c = '"' then ['\\', '"']
  else if c = '\\' then ['\\', '\\']
  else if c = Char.ofNat 8 then ['\\', 'b']
  else if c = Char.ofNat 12 then ['\\', 'f']
  else if c = '\n' then ['\\', 'n']
  else if c = '\r' then ['\\', 'r']
  else if c = '\t' then ['\\', 't']
  else if c.toNat < 32 then
    ['\\', 'u', '0', '0', hexDigitChar (c.toNat / 16), hexDigitChar (c.toNat % 16)]
  else [c]

/-- Escape every character of a string body. -/
def escStr (s : List Char) : List Char := s.flatMap escChar

/-- Serialize a JSON string: quotes around the escaped body. -/
def encStr (s : List Char) : List Char := '"' :: (escStr s ++ ['"'])

/-- Indentation: `d` spaces. -/
def pad (d : Nat) : List Char := List.replicate d ' '

mutual

/-- Model of `json.dumps(v, indent=2, ensure_ascii=False)` at current
indent column `d`: empty containers print inline, non-empty containers
put each element on its own line indented two further columns. -/
def encVal : Json → Nat → List Char
  | .str s, _ => encStr s
  | .num i, _ => intChars i
  | .bool true, _ => "true".data
  | .bool false, _ => "false".data
  | .null, _ => "null".data
  | .arr [], _ => "[]".data
  | .arr (v :: vs), d =>
    '[' :: '\n' :: (pad (d + 2) ++ (encItems (v :: vs) (d + 2) ++ ('\n' :: (pad d ++ [']']))))
  | .obj [], _ => "\x7b\x7d".data
  | .obj (m :: ms), d =>
    '{' :: '\n' :: (pad (d + 2) ++ (encMembers (m :: ms) (d + 2) ++ ('\n' :: (pad d ++ ['}']))))

/-- The elements of a non-empty array, fully separated. -/
def encItems : List Json → Nat → List Char
  | [], _ => []
  | v :: vs, d => encVal v d ++ encItemsSep vs d

/-- Comma-newline-indent separated tail elements of a non-empty array. -/
def encItemsSep : List Json → Nat → List Char
  | [], _ => []
  | v :: vs, d => ',' :: '\n' :: (pad d ++ (encVal v d ++ encItemsSep vs d))

/-- The members of a non-empty object, fully separated. -/
def encMembers : List (List Char × Json) → Nat → List Char
  | [], _ => []
  | (k, v) :: ms, d => encStr k ++ (':' :: ' ' :: (encVal v d ++ encMembersSep ms d))

/-- Comma-newline-indent separated tail members of a non-empty object. -/
def encMembersSep : List (List Char × Json) → Nat → List Char
  | [], _ => []
  | (k, v) :: ms, d =>
    ',' :: '\n' :: (pad d ++ (encStr k ++ (':' :: ' ' :: (encVal v d ++ encMembersSep ms d))))

end

/-- Whether a character needs no escaping when serialized: not the quote,
not the backslash, not a control character. -/
def plainChar (c : Char) : Bool := !(c == '"') && !(c == '\\') && !(c.toNat < 32)

/-- A string of plain characters (non-ASCII text qualifies). -/
def plainStr (s : List Char) : Bool := s.all plainChar

mutual

/-- Validity of a parsed value for the serialization round-trip: every
string (and key) consists of plain characters. -/
def validJ : Json → Bool
  | .str s => plainStr s
  | .num _ => true
  | .bool _ => true
  | .null => true
  | .arr l => validA l
  | .obj l => validM l

/-- Validity of array elements. -/
def validA : List Json → Bool
  | [] => true
  | v :: vs => validJ v && validA vs

/-- Validity of object members. -/
def validM : List (List Char × Json) → Bool
  | [] => true
  | (k, v) :: ms => plainStr k && validJ v && validM ms

end

/-- A list made only of JSON whitespace. -/
def allWsL (w : List Char) : Bool := w.all isJsonWs

/-- Model of the export path's `json.dumps(data, indent=2, ensure_ascii=False)`. -/
def json_dumps (v : Json) : List Char := encVal v 0

/-- Round-trip property of the value parser at fuel `n`: the
serialization of a valid value, between leading whitespace and a
non-extending remainder, parses back to the value. -/
def RtValP (n : Nat) : Prop :=
  ∀ (v : Json) (d : Nat) (w rest : List Char),
    validJ v = true → allWsL w = true → delimOk rest = true →
    w.length + (encVal v d).length + 1 ≤ n →
    parseVal n (w ++ (encVal v d ++ rest)) = some (v, rest)

/-- Round-trip property of the array-elements parser at fuel `n`. -/
def RtItemsP (n : Nat) : Prop :=
  ∀ (l : List Json) (d : Nat) (w w2 rest : List Char),
    l ≠ [] → validA l = true → allWsL w = true → allWsL w2 = true →
    w.length + (encItems l d).length + 2 ≤ n →
    parseItems n (w ++ (encItems l d ++ (w2 ++ (']' :: rest)))) = some (l, rest)

/-- Round-trip property of the object-members parser at fuel `n`. -/
def RtMembersP (n : Nat) : Prop :=
  ∀ (l : List (List Char × Json)) (d : Nat) (w w2 rest : List Char),
    l ≠ [] → validM l = true → allWsL w = true → allWsL w2 = true →
    w.length + (encMembers l d).length + 2 ≤ n →
    parseMembers n (w ++ (encMembers l d ++ (w2 ++ ('}' :: rest)))) = some (l, rest)

/-- Whitespace stripped from both ends by Python's `str.strip()`
(ASCII fragment: space, tab, newline, carriage return, vertical tab,
form feed). -/
def isPyWs (c : Char) : Bool :=
  c == ' ' || c == '\t' || c == '\n' || c == '\r' ||
  c == Char.ofNat 11 || c == Char.ofNat 12

/-- Model of Python's `str.strip()`: drop whitespace from both ends. -/
def pyStrip (s : List Char) : List Char :=
  ((s.dropWhile isPyWs).reverse.dropWhile isPyWs).reverse

/-- Boolean prefix test, modelling `str.startswith`. -/
def hasPre : List Char → List Char → Bool
  | [], _ => true
  | _ :: _, [] => false
  | p :: ps, c :: cs => p == c && hasPre ps cs

/-- Boolean suffix test, modelling `str.endswith`. -/
def hasSuf (p s : List Char) : Bool := hasPre p.reverse s.reverse

/-- Whether `pat` occurs as a contiguous run somewhere in the text
(used to check that non-ASCII text survives serialization literally). -/
def containsSub (pat : List Char) : List Char → Bool
  | [] => hasPre pat []
  | c :: t => hasPre pat (c :: t) || containsSub pat t

/-- The leading fence marker the client looks for, `` ```json ``. -/
def fenceJson : List Char := "```json".data

/-- The trailing fence marker, `` ``` ``. -/
def fenceTicks : List Char := "```".data

/-- Leading-fence removal (lines 168-169): drop the first seven
characters exactly when the text starts with `` ```json ``. -/
def fenceDropLead (t : List Char) : List Char :=
  if hasPre fenceJson t then t.drop 7 else t

/-- Trailing-fence removal (lines 170-171): drop the last three
characters exactly when the text ends with `` ``` ``. -/
def fenceDropTrail (t : List Char) : List Char :=
  if hasSuf fenceTicks t then t.take (t.length - 3) else t

/-- Response text clean-up of `extract_invoice_data` (lines 167-171):
`strip()`, then leading-fence removal, then trailing-fence removal. -/
def stripFences (text : List Char) : List Char :=
  fenceDropTrail (fenceDropLead (pyStrip text))

/-- Failure of the `client.messages.create` call inside the `try` block:
a transport problem or an authentication rejection, both raised as
exceptions by the SDK. -/
inductive ApiError where
  | transport : ApiError
  | auth : ApiError

/-- Model of `extract_invoice_data` (lines 78-177): the inference call
either raises (caught by the `except`, which returns `None`) or yields
the response text, which is fence-stripped and parsed; a parse error is
also caught and becomes `None`. -/
def extract_invoice_data : Except ApiError (List Char) → Option Json
  | .error _ => none
  | .ok text => parseTop (stripFences text)

/-- Python truthiness of a parsed JSON value, as tested by
`if extracted_data:`: empty containers, empty strings, zero, `False`
and `None` are falsy. -/
def pyTruthy : Json → Bool
  | .str s => !s.isEmpty
  | .num i => decide (i ≠ 0)
  | .bool b => b
  | .null => false
  | .arr l => !l.isEmpty
  | .obj l => !l.isEmpty

/-- The session-state result store `st.session_state.all_extracted_data`:
a mapping from filename to extracted record, in insertion order. -/
abbrev Store := List (List Char × Json)

/-- Dict assignment `store[name] = v`: replace in place when the key is
present, append otherwise (Python dicts preserve insertion order and
keep the original position on overwrite). -/
def put (s : Store) (n : List Char) (v : Json) : Store :=
  if n ∈ s.map Prod.fst then s.map (fun p => if p.1 = n then (n, v) else p)
  else s ++ [(n, v)]

/-- Dict lookup in the store. -/
def lookupS : Store → List Char → Option Json
  | [], _ => none
  | p :: ps, n => if p.1 = n then some p.2 else lookupS ps n

/-- The store's keys, in order. -/
def keysOf (s : Store) : List (List Char) := s.map Prod.fst

/-- What processing one uploaded file can do before the truthiness test:
raise outside `extract_invoice_data` (the `seek`/`encode_image` calls,
caught by the loop's own `except`), or reach the extraction call with
some inference outcome. -/
inductive ItemOutcome where
  | encodingError : ItemOutcome
  | response : Except ApiError (List Char) → ItemOutcome

/-- State of the process-all loop (lines 403-429): the store plus the
two counters initialized at lines 406-407. -/
structure BatchState where
  store : Store
  successful_extractions : Nat
  failed_extractions : Nat

/-- One iteration of the process-all loop (lines 409-429): an exception
before extraction counts a failure; otherwise the extracted value is
stored and counted as a success when truthy, and counted as a failure
when `None` or falsy. -/
def batchStep (st : BatchState) (item : List Char × ItemOutcome) : BatchState :=
  match item.2 with
  | .encodingError => { st with failed_extractions := st.failed_extractions + 1 }
  | .response resp =>
    match extract_invoice_data resp with
    | some v =>
      if pyTruthy v then
        { st with store := put st.store item.1 v,
                  successful_extractions := st.successful_extractions + 1 }
      else { st with failed_extractions := st.failed_extractions + 1 }
    | none => { st with failed_extractions := st.failed_extractions + 1 }

/-- The whole process-all loop over the uploaded files, in input order. -/
def processAll (items : List (List Char × ItemOutcome)) (st : BatchState) : BatchState :=
  items.foldl batchStep st

/-- The single-item path (lines 441-464): store the extracted value only
when it is truthy; failures and exceptions leave the store unchanged. -/
def processOne (store : Store) (name : List Char) (o : ItemOutcome) : Store :=
  match o with
  | .encodingError => store
  | .response resp =>
    match extract_invoice_data resp with
    | some v => if pyTruthy v then put store name v else store
    | none => store

/-- The `invoice_schema` literal embedded in the prompt (lines 83-125). -/
def invoice_schema : Json := Json.obj [("invoice".data, Json.obj [
  ("header".data, Json.obj [
    ("invoice_number".data, Json.str []),
    ("invoice_date".data, Json.str []),
    ("due_date".data, Json.str []),
    ("issuing_company".data, Json.str []),
    ("currency".data, Json.str [])]),
  ("billing_parties".data, Json.obj [
    ("bill_to".data, Json.obj [
      ("company_name".data, Json.str []),
      ("address".data, Json.str []),
      ("organization_number".data, Json.str []),
      ("vat_number".data, Json.str [])]),
    ("bill_from".data, Json.obj [
      ("company_name".data, Json.str []),
      ("address".data, Json.str []),
      ("organization_number".data, Json.str []),
      ("vat_number".data, Json.str []),
      ("phone".data, Json.str []),
      ("email".data, Json.str []),
      ("reference".data, Json.str [])])]),
  ("line_items".data, Json.arr []),
  ("totals".data, Json.obj [
    ("subtotal".data, Json.num 0),
    ("total_discount".data, Json.num 0),
    ("total_vat".data, Json.num 0),
    ("total_amount".data, Json.num 0),
    ("amount_paid".data, Json.num 0),
    ("balance_due".data, Json.num 0)]),
  ("payment_info".data, Json.obj [
    ("bank_name".data, Json.str []),
    ("iban".data, Json.str []),
    ("swift_bic".data, Json.str []),
    ("payment_reference".data, Json.str [])])])]

/-- Lookup in a parsed object's member list, later binding winning
(Python's `dict(pairs)` keeps the last value for a repeated key). -/
def lookupMembers (ms : List (List Char × Json)) (key : List Char) : Option Json :=
  ms.foldl (fun acc kv => if kv.1 = key then some kv.2 else acc) none

/-- Key access on a parsed value; `none` for non-objects. -/
def getKey : Json → List Char → Option Json
  | .obj ms, key => lookupMembers ms key
  | _, _ => none

/-- Whether every listed key is present in the value. -/
def hasAllKeys (j : Json) (ks : List (List Char)) : Bool :=
  ks.all (fun k => (getKey j k).isSome)

/-- Whether a record carries every field the schema declares: the
`invoice` envelope, `header`, `billing_parties` (with `bill_to` and
`bill_from`), `line_items`, `totals` and `payment_info`, each with all
of its declared subfields present as keys. -/
def containsAllDeclared (j : Json) : Bool :=
  match getKey j "invoice".data with
  | none => false
  | some inv =>
    (match getKey inv "header".data with
     | some h => hasAllKeys h ["invoice_number".data, "invoice_date".data,
         "due_date".data, "issuing_company".data, "currency".data]
     | none => false)
    && (match getKey inv "billing_parties".data with
        | some bp =>
          (match getKey bp "bill_to".data with
           | some b => hasAllKeys b ["company_name".data, "address".data,
               "organization_number".data, "vat_number".data]
           | none => false)
          && (match getKey bp "bill_from".data with
              | some b => hasAllKeys b ["company_name".data, "address".data,
                  "organization_number".data, "vat_number".data, "phone".data,
                  "email".data, "reference".data]
              | none => false)
        | none => false)
    && (getKey inv "line_items".data).isSome
    && (match getKey inv "totals".data with
        | some t => hasAllKeys t ["subtotal".data, "total_discount".data,
            "total_vat".data, "total_amount".data, "amount_paid".data,
            "balance_due".data]
        | none => false)
    && (match getKey inv "payment_info".data with
        | some p => hasAllKeys p ["bank_name".data, "iban".data,
            "swift_bic".data, "payment_reference".data]
        | none => false)

/-- Key access with a default, modelling `d.get(key, default)`. -/
def jGet (j : Json) (key : List Char) (dflt : Json) : Json :=
  match getKey j key with
  | some v => v
  | none => dflt

/-- Python `repr()` of a string (plain-text fragment: contents between
quotes without Python's escape processing). -/
def pyReprStr (s : List Char) : List Char :=
  if s.contains '\'' then '"' :: (s ++ ['"']) else '\'' :: (s ++ ['\''])

mutual

/-- Python `repr()` of a parsed-JSON value, for the string conversion
`csv` applies to container cells. -/
def pyRepr : Json → List Char
  | .str s => pyReprStr s
  | .num i => intChars i
  | .bool true => "True".data
  | .bool false => "False".data
  | .null => "None".data
  | .arr [] => "[]".data
  | .arr (v :: vs) => '[' :: (pyRepr v ++ (pyReprItemsSep vs ++ [']']))
  | .obj [] => "\x7b\x7d".data
  | .obj ((k, v) :: ms) =>
    '{' :: (pyReprStr k ++ (':' :: ' ' :: (pyRepr v ++ (pyReprMembersSep ms ++ ['}']))))

/-- Comma-separated tail of a Python list repr. -/
def pyReprItemsSep : List Json → List Char
  | [] => []
  | v :: vs => ',' :: ' ' :: (pyRepr v ++ pyReprItemsSep vs)

/-- Comma-separated tail of a Python dict repr. -/
def pyReprMembersSep : List (List Char × Json) → List Char
  | [] => []
  | (k, v) :: ms =>
    ',' :: ' ' :: (pyReprStr k ++ (':' :: ' ' :: (pyRepr v ++ pyReprMembersSep ms)))

end

/-- Python `str()` of a parsed-JSON value, as `csv` renders each cell:
strings pass through unchanged, everything else through its repr. -/
def pyStrOf : Json → List Char
  | .str s => s
  | v => pyRepr v

/-- Whether `csv` (QUOTE_MINIMAL) must quote a cell: it contains the
delimiter, the quote character, or a line break. -/
def csvNeedsQuote (s : List Char) : Bool :=
  s.any (fun c => c == ',' || c == '"' || c == '\n' || c == '\r')

/-- One CSV cell with minimal quoting; inner quotes are doubled. -/
def csvField (s : List Char) : List Char :=
  if csvNeedsQuote s then
    '"' :: (s.flatMap (fun c => if c = '"' then ['"', '"'] else [c]) ++ ['"'])
  else s

/-- One CSV line: comma-joined cells terminated by CRLF
(`csv.DictWriter`'s default line terminator). -/
def csvLine (cells : List (List Char)) : List Char :=
  List.intercalate ",".data (cells.map csvField) ++ "\r\n".data

/-- The eight summary columns, in the order the row dict declares them
(lines 528-537), which `DictWriter` takes as its field names. -/
def summary_fieldnames : List (List Char) :=
  ["filename".data, "invoice_number".data, "company".data, "total_amount".data,
   "currency".data, "balance_due".data, "invoice_date".data, "due_date".data]

/-- The header line `writeheader()` emits. -/
def csvHeaderLine : List Char := csvLine summary_fieldnames

/-- The cells of one summary row, each field read with the `.get`
defaults of lines 527-537. -/
def summaryRowCells (filename : List Char) (data : Json) : List (List Char) :=
  let invoice := jGet data "invoice".data (Json.obj [])
  let header := jGet invoice "header".data (Json.obj [])
  let totals := jGet invoice "totals".data (Json.obj [])
  let billFrom := jGet (jGet invoice "billing_parties".data (Json.obj []))
    "bill_from".data (Json.obj [])
  [filename,
   pyStrOf (jGet header "invoice_number".data (Json.str [])),
   pyStrOf (jGet billFrom "company_name".data (Json.str [])),
   pyStrOf (jGet totals "total_amount".data (Json.num 0)),
   pyStrOf (jGet header "currency".data (Json.str [])),
   pyStrOf (jGet totals "balance_due".data (Json.num 0)),
   pyStrOf (jGet header "invoice_date".data (Json.str [])),
   pyStrOf (jGet header "due_date".data (Json.str []))]

/-- The summary-CSV construction (lines 524-546): rows are built from
the store in iteration order; `if summary_data:` guards both the header
and the rows, so an empty store leaves the `StringIO` buffer empty. -/
def summaryCsv (store : Store) : List Char :=
  match store with
  | [] => []
  | _ => csvHeaderLine ++ (store.map (fun p => csvLine (summaryRowCells p.1 p.2))).flatten

/-- Header subrecord of the canonical invoice record. -/
structure InvHeader where
  invoice_number : List Char
  invoice_date : List Char
  due_date : List Char
  issuing_company : List Char
  currency : List Char

/-- The `bill_to` party. -/
structure BillTo where
  company_name : List Char
  address : List Char
  organization_number : List Char
  vat_number : List Char

/-- The `bill_from` party. -/
structure BillFrom where
  company_name : List Char
  address : List Char
  organization_number : List Char
  vat_number : List Char
  phone : List Char
  email : List Char
  reference : List Char

/-- One line item, with the nine fields the prompt requires (numbers
modelled as integers). -/
structure LineItem where
  line_number : Int
  description : List Char
  quantity : Int
  unit_of_measure : List Char
  unit_price : Int
  discount_percentage : Int
  line_total : Int
  vat_rate : Int
  vat_amount : Int

/-- The totals block. -/
structure InvTotals where
  subtotal : Int
  total_discount : Int
  total_vat : Int
  total_amount : Int
  amount_paid : Int
  balance_due : Int

/-- The payment-information block. -/
structure PaymentInfo where
  bank_name : List Char
  iban : List Char
  swift_bic : List Char
  payment_reference : List Char

/-- An invoice record with every declared field, the shape the schema
prescribes. -/
structure InvoiceRecord where
  header : InvHeader
  bill_to : BillTo
  bill_from : BillFrom
  line_items : List LineItem
  totals : InvTotals
  payment_info : PaymentInfo

/-- JSON shape of one line item. -/
def lineItemJson (it : LineItem) : Json := Json.obj [
  ("line_number".data, Json.num it.line_number),
  ("description".data, Json.str it.description),
  ("quantity".data, Json.num it.quantity),
  ("unit_of_measure".data, Json.str it.unit_of_measure),
  ("unit_price".data, Json.num it.unit_price),
  ("discount_percentage".data, Json.num it.discount_percentage),
  ("line_total".data, Json.num it.line_total),
  ("vat_rate".data, Json.num it.vat_rate),
  ("vat_amount".data, Json.num it.vat_amount)]

/-- JSON shape of a full record under its `invoice` envelope, mirroring
the schema's nesting. -/
def recJson (r : InvoiceRecord) : Json := Json.obj [("invoice".data, Json.obj [
  ("header".data, Json.obj [
    ("invoice_number".data, Json.str r.header.invoice_number),
    ("invoice_date".data, Json.str r.header.invoice_date),
    ("due_date".data, Json.str r.header.due_date),
    ("issuing_company".data, Json.str r.header.issuing_company),
    ("currency".data, Json.str r.header.currency)]),
  ("billing_parties".data, Json.obj [
    ("bill_to".data, Json.obj [
      ("company_name".data, Json.str r.bill_to.company_name),
      ("address".data, Json.str r.bill_to.address),
      ("organization_number".data, Json.str r.bill_to.organization_number),
      ("vat_number".data, Json.str r.bill_to.vat_number)]),
    ("bill_from".data, Json.obj [
      ("company_name".data, Json.str r.bill_from.company_name),
      ("address".data, Json.str r.bill_from.address),
      ("organization_number".data, Json.str r.bill_from.organization_number),
      ("vat_number".data, Json.str r.bill_from.vat_number),
      ("phone".data, Json.str r.bill_from.phone),
      ("email".data, Json.str r.bill_from.email),
      ("reference".data, Json.str r.bill_from.reference)])]),
  ("line_items".data, Json.arr (r.line_items.map lineItemJson)),
  ("totals".data, Json.obj [
    ("subtotal".data, Json.num r.totals.subtotal),
    ("total_discount".data, Json.num r.totals.total_discount),
    ("total_vat".data, Json.num r.totals.total_vat),
    ("total_amount".data, Json.num r.totals.total_amount),
    ("amount_paid".data, Json.num r.totals.amount_paid),
    ("balance_due".data, Json.num r.totals.balance_due)]),
  ("payment_info".data, Json.obj [
    ("bank_name".data, Json.str r.payment_info.bank_name),
    ("iban".data, Json.str r.payment_info.iban),
    ("swift_bic".data, Json.str r.payment_info.swift_bic),
    ("payment_reference".data, Json.str r.payment_info.payment_reference)])])]

/-- Validity of a record's field values: every string field is plain
text (arbitrary otherwise, including empty and non-ASCII; numbers are
unrestricted). -/
def validRec (r : InvoiceRecord) : Bool :=
  plainStr r.header.invoice_number && plainStr r.header.invoice_date &&
  plainStr r.header.due_date && plainStr r.header.issuing_company &&
  plainStr r.header.currency &&
  plainStr r.bill_to.company_name && plainStr r.bill_to.address &&
  plainStr r.bill_to.organization_number && plainStr r.bill_to.vat_number &&
  plainStr r.bill_from.company_name && plainStr r.bill_from.address &&
  plainStr r.bill_from.organization_number && plainStr r.bill_from.vat_number &&
  plainStr r.bill_from.phone && plainStr r.bill_from.email &&
  plainStr r.bill_from.reference &&
  r.line_items.all (fun it => plainStr it.description && plainStr it.unit_of_measure) &&
  plainStr r.payment_info.bank_name && plainStr r.payment_info.iban &&
  plainStr r.payment_info.swift_bic && plainStr r.payment_info.payment_reference

/-- A record with every field empty or zero. -/
def emptyRecord : InvoiceRecord :=
  ⟨⟨[], [], [], [], []⟩, ⟨[], [], [], []⟩, ⟨[], [], [], [], [], [], []⟩,
   [], ⟨0, 0, 0, 0, 0, 0⟩, ⟨[], [], [], []⟩⟩

/-- The non-ASCII example record: `bill_from.company_name` is
"Müller GmbH", everything else defaulted. -/
def muellerRecord : InvoiceRecord :=
  { emptyRecord with bill_from := { emptyRecord.bill_from with
      company_name := "Müller GmbH".data } }

/-- Whether processing an item takes one of the failure paths of the
batch loop: an exception before extraction, an extraction returning
`None`, or a falsy extracted value. -/
def itemFails (o : ItemOutcome) : Bool :=
  match o with
  | .encodingError => true
  | .response r =>
    match extract_invoice_data r with
    | none => true
    | some v => !pyTruthy v

/-- The backtick character, head of every fence marker. -/
def btick : Char := Char.ofNat 96

/-! ### Store lemmas -/

theorem lookupS_of_not_mem (s : Store) (n : List Char) (h : n ∉ keysOf s) :
    lookupS s n = none := by
  induction s with
  | nil => rfl
  | cons p ps ih =>
    have hp : ¬(p.1 = n) := fun he => h (by simp [keysOf, he])
    have h' : n ∉ keysOf ps := fun hm => h (by simp [keysOf] at hm ⊢; exact Or.inr hm)
    simp [lookupS, hp, ih h']

theorem put_of_not_mem (s : Store) (n : List Char) (v : Json) (h : n ∉ keysOf s) :
    put s n v = s ++ [(n, v)] := by
  have h' : n ∉ s.map Prod.fst := by simpa [keysOf] using h
  unfold put
  rw [if_neg h']

theorem lookupS_append_here (s : Store) (n : List Char) (v : Json) (h : n ∉ keysOf s) :
    lookupS (s ++ [(n, v)]) n = some v := by
  induction s with
  | nil => simp [lookupS]
  | cons p ps ih =>
    have hp : ¬(p.1 = n) := fun he => h (by simp [keysOf, he])
    have h' : n ∉ keysOf ps := fun hm => h (by simp [keysOf] at hm ⊢; exact Or.inr hm)
    simp [lookupS, hp, ih h']

theorem lookupS_put_self (s : Store) (n : List Char) (v : Json) :
    lookupS (put s n v) n = some v := by
  unfold put
  by_cases h : n ∈ s.map Prod.fst
  · rw [if_pos h]
    induction s with
    | nil => simp at h
    | cons p ps ih =>
      by_cases hp : p.1 = n
      · simp [lookupS, hp]
      · have h' : n ∈ ps.map Prod.fst := by
          rw [List.map_cons] at h
          rcases List.mem_cons.mp h with h1 | h2
          · exact absurd h1.symm hp
          · exact h2
        simp [lookupS, hp, ih h']
  · rw [if_neg h]
    exact lookupS_append_here s n v h

theorem keys_map_upd (s : Store) (n : List Char) (v : Json) :
    (s.map (fun p => if p.1 = n then (n, v) else p)).map Prod.fst = s.map Prod.fst := by
  induction s with
  | nil => rfl
  | cons p ps ih =>
    by_cases hp : p.1 = n
    · simp [hp, ih]
    · simp [hp, ih]

theorem keysOf_put (s : Store) (n : List Char) (v : Json) :
    keysOf (put s n v) = if n ∈ keysOf s then keysOf s else keysOf s ++ [n] := by
  unfold put keysOf
  by_cases h : n ∈ s.map Prod.fst
  · rw [if_pos h, if_pos h]
    exact keys_map_upd s n v
  · rw [if_neg h, if_neg h]
    simp

theorem nodup_keys_put (s : Store) (n : List Char) (v : Json)
    (h : (keysOf s).Nodup) : (keysOf (put s n v)).Nodup := by
  rw [keysOf_put]
  by_cases hm : n ∈ keysOf s
  · rwa [if_pos hm]
  · rw [if_neg hm]
    simpa [List.nodup_append] using ⟨h, hm⟩

/-! ### Batch loop lemmas -/

theorem batchStep_counts (st : BatchState) (item : List Char × ItemOutcome) :
    (batchStep st item).successful_extractions + (batchStep st item).failed_extractions
      = st.successful_extractions + st.failed_extractions + 1 := by
  rcases item with ⟨name, o⟩
  cases o with
  | encodingError =>
    simp only [batchStep]
    omega
  | response resp =>
    cases hr : extract_invoice_data resp with
    | none =>
      simp only [batchStep, hr]
      omega
    | some v =>
      by_cases ht : pyTruthy v = true
      · simp only [batchStep, hr]
        rw [if_pos ht]
        simp
        all_goals omega
      · simp only [batchStep, hr]
        rw [if_neg ht]
        simp
        all_goals omega

theorem processAll_counts (items : List (List Char × ItemOutcome)) (st : BatchState) :
    (processAll items st).successful_extractions + (processAll items st).failed_extractions
      = st.successful_extractions + st.failed_extractions + items.length := by
  induction items generalizing st with
  | nil => simp [processAll]
  | cons it its ih =>
    have h1 := batchStep_counts st it
    have h2 := ih (batchStep st it)
    simp only [processAll, List.foldl_cons] at h2 ⊢
    rw [h2, h1]
    simp [List.length_cons]
    omega

theorem batchStep_of_fails (st : BatchState) (name : List Char) (o : ItemOutcome)
    (h : itemFails o = true) :
    batchStep st (name, o) = { st with failed_extractions := st.failed_extractions + 1 } := by
  cases o with
  | encodingError => rfl
  | response resp =>
    cases hr : extract_invoice_data resp with
    | none => simp [batchStep, hr]
    | some v =>
      have hv : pyTruthy v = false := by
        simpa [itemFails, hr] using h
      simp [batchStep, hr, hv]

theorem nodup_keys_batchStep (st : BatchState) (item : List Char × ItemOutcome)
    (h : (keysOf st.store).Nodup) : (keysOf (batchStep st item).store).Nodup := by
  rcases item with ⟨name, o⟩
  cases o with
  | encodingError => exact h
  | response resp =>
    cases hr : extract_invoice_data resp with
    | none => simpa [batchStep, hr] using h
    | some v =>
      by_cases ht : pyTruthy v
      · simpa [batchStep, hr, ht] using nodup_keys_put st.store name v h
      · simpa [batchStep, hr, ht] using h

theorem nodup_keys_processAll (items : List (List Char × ItemOutcome)) (st : BatchState)
    (h : (keysOf st.store).Nodup) : (keysOf (processAll items st).store).Nodup := by
  induction items generalizing st with
  | nil => exact h
  | cons it its ih =>
    simpa [processAll, List.foldl_cons] using
      ih (batchStep st it) (nodup_keys_batchStep st it h)

theorem nodup_keys_processOne (store : Store) (name : List Char) (o : ItemOutcome)
    (h : (keysOf store).Nodup) : (keysOf (processOne store name o)).Nodup := by
  cases o with
  | encodingError => exact h
  | response resp =>
    cases hr : extract_invoice_data resp with
    | none => simpa [processOne, hr] using h
    | some v =>
      by_cases ht : pyTruthy v
      · simpa [processOne, hr, ht] using nodup_keys_put store name v h
      · simpa [processOne, hr, ht] using h

theorem nodup_keys_processOne_fold (ops : List (List Char × ItemOutcome)) (store : Store)
    (h : (keysOf store).Nodup) :
    (keysOf (ops.foldl (fun s p => processOne s p.1 p.2) store)).Nodup := by
  induction ops generalizing store with
  | nil => exact h
  | cons op ops ih =>
    simpa [List.foldl_cons] using
      ih (processOne store op.1 op.2) (nodup_keys_processOne store op.1 op.2 h)

/-- A run of items that all extract to truthy values, into a store not yet
holding their (pairwise distinct) names, appends exactly their records in
order and counts exactly their number of successes. -/
theorem processAll_good_run
    (goods : List (List Char × Except ApiError (List Char) × Json)) (st : BatchState)
    (hgood : ∀ t ∈ goods, extract_invoice_data t.2.1 = some t.2.2 ∧ pyTruthy t.2.2 = true)
    (hfresh : ∀ t ∈ goods, t.1 ∉ keysOf st.store)
    (hnd : (goods.map (fun t => t.1)).Nodup) :
    processAll (goods.map (fun t => (t.1, ItemOutcome.response t.2.1))) st
      = ⟨st.store ++ goods.map (fun t => (t.1, t.2.2)),
         st.successful_extractions + goods.length, st.failed_extractions⟩ := by
  induction goods generalizing st with
  | nil =>
    simp [processAll]
  | cons t ts ih =>
    obtain ⟨hex, htr⟩ := hgood t (by simp)
    have hfr : t.1 ∉ keysOf st.store := hfresh t (by simp)
    have hstep : batchStep st (t.1, ItemOutcome.response t.2.1)
        = ⟨st.store ++ [(t.1, t.2.2)], st.successful_extractions + 1,
           st.failed_extractions⟩ := by
      simp [batchStep, hex, htr, put_of_not_mem st.store t.1 t.2.2 hfr]
    have hnd' : (ts.map (fun t => t.1)).Nodup := (List.nodup_cons.mp hnd).2
    have hni : t.1 ∉ ts.map (fun t => t.1) := (List.nodup_cons.mp hnd).1
    have hfresh' : ∀ u ∈ ts,
        u.1 ∉ keysOf (st.store ++ [(t.1, t.2.2)]) := by
      intro u hu hmem
      simp only [keysOf, List.map_append, List.mem_append] at hmem
      rcases hmem with hm | hm
      · exact hfresh u (by simp [hu]) hm
      · simp only [List.map_cons, List.map_nil, List.mem_singleton] at hm
        exact hni (hm ▸ List.mem_map_of_mem (fun t => t.1) hu)
    have := ih ⟨st.store ++ [(t.1, t.2.2)], st.successful_extractions + 1,
        st.failed_extractions⟩ (fun u hu => hgood u (by simp [hu])) hfresh' hnd'
    simp only [processAll, List.map_cons, List.foldl_cons] at this ⊢
    rw [hstep, this]
    simp only [List.append_assoc, List.singleton_append, List.length_cons]
    congr 1
    omega

/-! ### Fence-handling lemmas -/

theorem pyStrip_keeps_ends (a b : Char) (mid : List Char)
    (ha : isPyWs a = false) (hb : isPyWs b = false) :
    pyStrip (a :: (mid ++ [b])) = a :: (mid ++ [b]) := by
  unfold pyStrip
  rw [List.dropWhile_cons]
  simp only [ha, Bool.false_eq_true, if_false]
  rw [show (a :: (mid ++ [b])).reverse = b :: (mid.reverse ++ [a]) from by simp]
  rw [List.dropWhile_cons]
  simp only [hb, Bool.false_eq_true, if_false]
  simp

theorem hasPre_self_append (q u : List Char) : hasPre q (q ++ u) = true := by
  induction q with
  | nil => rfl
  | cons c cs ih => simp [hasPre, ih]

theorem hasSuf_append_self (p s : List Char) : hasSuf p (s ++ p) = true := by
  unfold hasSuf
  rw [List.reverse_append]
  exact hasPre_self_append p.reverse s.reverse

theorem parseVal_btick (n : Nat) (s : List Char) :
    parseVal (n + 1) (btick :: s) = none := by
  have h1 : isJsonWs btick = false := rfl
  have h2 : btick.isDigit = false := rfl
  simp only [parseVal, skipWs, List.dropWhile_cons, h1, Bool.false_eq_true, if_false]
  simp only [h2]
  rw [if_neg (by decide), if_neg (by decide), if_neg (by decide), if_neg (by decide),
    if_neg (by decide), if_neg (by decide), if_neg (by decide)]
  rw [if_neg (by decide)]

theorem parseTop_btick (s : List Char) : parseTop (btick :: s) = none := by
  unfold parseTop
  rw [show (btick :: s).length + 1 = s.length + 1 + 1 from by simp]
  rw [parseVal_btick]

/-! ### Extension lemmas: appending unparsed input does not disturb a
successful parse (used for the fence round-trip). -/

theorem skipWs_cons_of_ws (c : Char) (s : List Char) (h : isJsonWs c = true) :
    skipWs (c :: s) = skipWs s := by
  simp [skipWs, List.dropWhile_cons, h]

theorem skipWs_append_of_cons {s : List Char} {c : Char} {t : List Char}
    (h : skipWs s = c :: t) (u : List Char) : skipWs (s ++ u) = c :: (t ++ u) := by
  unfold skipWs at h ⊢
  rw [List.dropWhile_append, h]
  simp

theorem skipWs_append_of_nil {s : List Char} (h : skipWs s = []) (u : List Char) :
    skipWs (s ++ u) = skipWs u := by
  unfold skipWs at h ⊢
  rw [List.dropWhile_append, h]
  simp

theorem stripPre_append {p s r : List Char} (h : stripPre p s = some r) (u : List Char) :
    stripPre p (s ++ u) = some (r ++ u) := by
  induction p generalizing s r with
  | nil =>
    simp [stripPre] at h ⊢
    rw [h]
  | cons a ps ih =>
    cases s with
    | nil => simp [stripPre] at h
    | cons c cs =>
      by_cases hc : c = a
      · simp only [stripPre, if_pos hc] at h
        simp only [List.cons_append, stripPre, if_pos hc]
        exact ih h
      · simp [stripPre, hc] at h

theorem parseStrBody_append : ∀ (s : List Char) {cs r : List Char} (u : List Char),
    parseStrBody s = some (cs, r) → parseStrBody (s ++ u) = some (cs, r ++ u)
  | [], _, _, _, h => by simp [parseStrBody] at h
  | c :: rest, cs, r, u, h => by
    by_cases h1 : c = '"'
    · subst h1
      rw [parseStrBody.eq_def] at h
      simp only [eq_self_iff_true, if_true, Option.some.injEq, Prod.mk.injEq] at h
      rw [List.cons_append, parseStrBody.eq_def]
      simp only [eq_self_iff_true, if_true, Option.some.injEq, Prod.mk.injEq]
      exact ⟨h.1, by rw [← h.2]⟩
    · by_cases h2 : c = '\\'
      · subst h2
        rcases rest with _ | ⟨e, rest2⟩
        · rw [parseStrBody.eq_def] at h
          simp at h
        · by_cases h3 : e = 'u'
          · subst h3
            rcases rest2 with _ | ⟨a1, _ | ⟨a2, _ | ⟨a3, _ | ⟨a4, rest3⟩⟩⟩⟩
            · rw [parseStrBody.eq_def] at h
              simp at h
            · rw [parseStrBody.eq_def] at h
              simp at h
            · rw [parseStrBody.eq_def] at h
              simp at h
            · rw [parseStrBody.eq_def] at h
              simp at h
            · rw [parseStrBody.eq_def] at h
              simp only [reduceCtorEq, reduceIte, eq_self_iff_true, if_true] at h
              rw [show ('\\' :: 'u' :: a1 :: a2 :: a3 :: a4 :: rest3) ++ u
                  = '\\' :: 'u' :: a1 :: a2 :: a3 :: a4 :: (rest3 ++ u) from rfl]
              rw [parseStrBody.eq_def]
              simp only [reduceCtorEq, reduceIte, eq_self_iff_true, if_true]
              cases hv : hex4 a1 a2 a3 a4 with
              | none => simp [hv] at h
              | some n =>
                simp only [hv] at h ⊢
                by_cases hs : (decide (55296 ≤ n) && decide (n < 57344)) = true
                · rw [if_pos hs] at h
                  exact absurd h (by simp)
                · rw [if_neg hs] at h
                  rw [if_neg hs]
                  obtain ⟨⟨cs0, r0⟩, hp0, hmk⟩ := Option.map_eq_some'.mp h
                  injection hmk with hA hB
                  subst hA
                  subst hB
                  rw [parseStrBody_append rest3 u hp0]
                  rfl
          · rw [parseStrBody.eq_def] at h
            simp only [reduceCtorEq, reduceIte, eq_self_iff_true, if_true, if_neg h3] at h
            rw [show ('\\' :: e :: rest2) ++ u = '\\' :: e :: (rest2 ++ u) from rfl]
            rw [parseStrBody.eq_def]
            simp only [reduceCtorEq, reduceIte, eq_self_iff_true, if_true, if_neg h3]
            cases hd : escDecode e with
            | none => simp [hd] at h
            | some ec =>
              simp only [hd] at h ⊢
              obtain ⟨⟨cs0, r0⟩, hp0, hmk⟩ := Option.map_eq_some'.mp h
              injection hmk with hA hB
              subst hA
              subst hB
              rw [parseStrBody_append rest2 u hp0]
              rfl
      · by_cases h4 : c.toNat < 32
        · rw [parseStrBody.eq_def] at h
          simp only [if_neg h1, if_neg h2, if_pos h4] at h
          exact absurd h (by simp)
        · rw [parseStrBody.eq_def] at h
          simp only [if_neg h1, if_neg h2, if_neg h4] at h
          rw [List.cons_append, parseStrBody.eq_def]
          simp only [if_neg h1, if_neg h2, if_neg h4]
          obtain ⟨⟨cs0, r0⟩, hp0, hmk⟩ := Option.map_eq_some'.mp h
          injection hmk with hA hB
          subst hA
          subst hB
          rw [parseStrBody_append rest u hp0]
          rfl

theorem dropWhile_nil_parts {p : Char → Bool} : ∀ {s : List Char},
    List.dropWhile p s = [] → List.takeWhile p s = s ∧ ∀ c ∈ s, p c = true := by
  intro s
  induction s with
  | nil => intro _; exact ⟨rfl, by simp⟩
  | cons c t ih =>
    intro h
    by_cases hc : p c = true
    · rw [List.dropWhile_cons, if_pos hc] at h
      obtain ⟨h1, h2⟩ := ih h
      refine ⟨by rw [List.takeWhile_cons, if_pos hc, h1], ?_⟩
      intro x hx
      rcases List.mem_cons.mp hx with rfl | hx2
      · exact hc
      · exact h2 x hx2
    · rw [List.dropWhile_cons, if_neg hc] at h
      simp at h

theorem takeWhile_append_of_all {p : Char → Bool} : ∀ (s : List Char) (u : List Char),
    (∀ c ∈ s, p c = true) →
    List.takeWhile p (s ++ u) = s ++ List.takeWhile p u
      ∧ List.dropWhile p (s ++ u) = List.dropWhile p u := by
  intro s
  induction s with
  | nil => intro u _; exact ⟨rfl, rfl⟩
  | cons c t ih =>
    intro u hall
    have hc : p c = true := hall c (by simp)
    obtain ⟨h1, h2⟩ := ih u (fun x hx => hall x (by simp [hx]))
    constructor
    · rw [List.cons_append, List.takeWhile_cons, if_pos hc, h1]
      simp
    · rw [List.cons_append, List.dropWhile_cons, if_pos hc, h2]

theorem takeWhile_append_of_stop {p : Char → Bool} : ∀ (s : List Char) (u : List Char),
    List.dropWhile p s ≠ [] →
    List.takeWhile p (s ++ u) = List.takeWhile p s
      ∧ List.dropWhile p (s ++ u) = List.dropWhile p s ++ u := by
  intro s
  induction s with
  | nil => intro u h; exact absurd rfl h
  | cons c t ih =>
    intro u h
    by_cases hc : p c = true
    · rw [List.dropWhile_cons, if_pos hc] at h
      obtain ⟨h1, h2⟩ := ih u h
      constructor
      · rw [List.cons_append, List.takeWhile_cons, if_pos hc, h1,
          List.takeWhile_cons, if_pos hc]
      · rw [List.cons_append, List.dropWhile_cons, if_pos hc, h2,
          List.dropWhile_cons, if_pos hc]
    · constructor
      · rw [List.cons_append, List.takeWhile_cons, if_neg hc, List.takeWhile_cons, if_neg hc]
      · rw [List.cons_append, List.dropWhile_cons, if_neg hc, List.dropWhile_cons, if_neg hc]
        rw [List.cons_append]

theorem takeWhile_delim (u : List Char) (h : delimOk u = true) :
    List.takeWhile Char.isDigit u = [] ∧ List.dropWhile Char.isDigit u = u := by
  cases u with
  | nil => exact ⟨rfl, rfl⟩
  | cons c t =>
    have hc : c.isDigit = false := by simpa [delimOk] using h
    exact ⟨by rw [List.takeWhile_cons, hc]; simp,
      by rw [List.dropWhile_cons, hc]; simp⟩

theorem parseNat_append {s : List Char} {m : Nat} {r : List Char}
    (h : parseNat s = some (m, r)) (u : List Char) (hu : delimOk u = true) :
    parseNat (s ++ u) = some (m, r ++ u) := by
  unfold parseNat at h ⊢
  by_cases hstop : List.dropWhile Char.isDigit s = []
  · obtain ⟨htake, hall⟩ := dropWhile_nil_parts hstop
    obtain ⟨h1, h2⟩ := takeWhile_append_of_all s u hall
    obtain ⟨hu1, hu2⟩ := takeWhile_delim u hu
    rw [h1, hu1, List.append_nil, h2, hu2]
    rw [htake, hstop] at h
    by_cases he : s.isEmpty
    · rw [if_pos he] at h
      exact absurd h (by simp)
    · rw [if_neg he] at h ⊢
      by_cases hz : 2 ≤ s.length ∧ s.headD ' ' = '0'
      · rw [if_pos hz] at h
        exact absurd h (by simp)
      · rw [if_neg hz] at h ⊢
        injection h with hpair
        injection hpair with hm hr
        subst hm
        subst hr
        rfl
  · obtain ⟨h1, h2⟩ := takeWhile_append_of_stop s u hstop
    rw [h1, h2]
    by_cases he : (List.takeWhile Char.isDigit s).isEmpty
    · rw [if_pos he] at h
      exact absurd h (by simp)
    · rw [if_neg he] at h ⊢
      by_cases hz : 2 ≤ (List.takeWhile Char.isDigit s).length
          ∧ (List.takeWhile Char.isDigit s).headD ' ' = '0'
      · rw [if_pos hz] at h
        exact absurd h (by simp)
      · rw [if_neg hz] at h ⊢
        injection h with hpair
        injection hpair with hm hr
        subst hm
        subst hr
        rfl

theorem parseVal_nil (n : Nat) : parseVal n [] = none := by
  cases n <;> rfl

theorem extVal_step (n : Nat)
    (ihI : ∀ k, k < n → ExtItemsP k) (ihM : ∀ k, k < n → ExtMembersP k) :
    ExtValP n := by
  intro s v r u m hp hu hnm
  cases n with
  | zero => exact absurd hp (by simp [parseVal])
  | succ nn =>
  cases m with
  | zero => omega
  | succ mm =>
  have hnm' : nn ≤ mm := by omega
  simp only [parseVal] at hp ⊢
  cases hsk : skipWs s with
  | nil => rw [hsk] at hp; exact absurd hp (by simp)
  | cons c t =>
  simp only [hsk] at hp
  simp only [skipWs_append_of_cons hsk u]
  by_cases hc1 : c = '"'
  · rw [if_pos hc1] at hp ⊢
    obtain ⟨⟨cs0, r0⟩, hp0, hmk⟩ := Option.map_eq_some'.mp hp
    injection hmk with hA hB
    subst hA
    subst hB
    rw [parseStrBody_append t u hp0]
    rfl
  · rw [if_neg hc1] at hp ⊢
    by_cases hc2 : c = 't'
    · rw [if_pos hc2] at hp ⊢
      obtain ⟨r0, hp0, hmk⟩ := Option.map_eq_some'.mp hp
      injection hmk with hA hB
      subst hA
      subst hB
      rw [stripPre_append hp0]
      rfl
    · rw [if_neg hc2] at hp ⊢
      by_cases hc3 : c = 'f'
      · rw [if_pos hc3] at hp ⊢
        obtain ⟨r0, hp0, hmk⟩ := Option.map_eq_some'.mp hp
        injection hmk with hA hB
        subst hA
        subst hB
        rw [stripPre_append hp0]
        rfl
      · rw [if_neg hc3] at hp ⊢
        by_cases hc4 : c = 'n'
        · rw [if_pos hc4] at hp ⊢
          obtain ⟨r0, hp0, hmk⟩ := Option.map_eq_some'.mp hp
          injection hmk with hA hB
          subst hA
          subst hB
          rw [stripPre_append hp0]
          rfl
        · rw [if_neg hc4] at hp ⊢
          by_cases hc5 : c = '-'
          · rw [if_pos hc5] at hp ⊢
            obtain ⟨⟨m0, r0⟩, hp0, hmk⟩ := Option.map_eq_some'.mp hp
            injection hmk with hA hB
            subst hA
            subst hB
            rw [parseNat_append hp0 u hu]
            rfl
          · rw [if_neg hc5] at hp ⊢
            by_cases hc6 : c.isDigit = true
            · rw [if_pos hc6] at hp ⊢
              obtain ⟨⟨m0, r0⟩, hp0, hmk⟩ := Option.map_eq_some'.mp hp
              injection hmk with hA hB
              subst hA
              subst hB
              rw [show c :: (t ++ u) = (c :: t) ++ u from rfl]
              rw [parseNat_append hp0 u hu]
              rfl
            · rw [if_neg hc6] at hp ⊢
              by_cases hc7 : c = '['
              · rw [if_pos hc7] at hp ⊢
                cases hsk2 : skipWs t with
                | nil => rw [hsk2] at hp; exact absurd hp (by simp)
                | cons c2 t2 =>
                  simp only [hsk2] at hp
                  simp only [skipWs_append_of_cons hsk2 u]
                  by_cases hb : c2 = ']'
                  · rw [if_pos hb] at hp ⊢
                    injection hp with hpair
                    injection hpair with hA hB
                    subst hA
                    subst hB
                    rfl
                  · rw [if_neg hb] at hp ⊢
                    obtain ⟨⟨l0, r0⟩, hp0, hmk⟩ := Option.map_eq_some'.mp hp
                    injection hmk with hA hB
                    subst hA
                    subst hB
                    rw [show c2 :: (t2 ++ u) = (c2 :: t2) ++ u from rfl]
                    rw [ihI nn (by omega) (c2 :: t2) l0 r0 u mm hp0 hu hnm']
                    rfl
              · rw [if_neg hc7] at hp ⊢
                by_cases hc8 : c = '{'
                · rw [if_pos hc8] at hp ⊢
                  cases hsk2 : skipWs t with
                  | nil => rw [hsk2] at hp; exact absurd hp (by simp)
                  | cons c2 t2 =>
                    simp only [hsk2] at hp
                    simp only [skipWs_append_of_cons hsk2 u]
                    by_cases hb : c2 = '}'
                    · rw [if_pos hb] at hp ⊢
                      injection hp with hpair
                      injection hpair with hA hB
                      subst hA
                      subst hB
                      rfl
                    · rw [if_neg hb] at hp ⊢
                      obtain ⟨⟨l0, r0⟩, hp0, hmk⟩ := Option.map_eq_some'.mp hp
                      injection hmk with hA hB
                      subst hA
                      subst hB
                      rw [show c2 :: (t2 ++ u) = (c2 :: t2) ++ u from rfl]
                      rw [ihM nn (by omega) (c2 :: t2) l0 r0 u mm hp0 hu hnm']
                      rfl
                · rw [if_neg hc8] at hp
                  exact absurd hp (by simp)

theorem extItems_step (n : Nat)
    (ihV : ∀ k, k < n → ExtValP k) (ihI : ∀ k, k < n → ExtItemsP k) :
    ExtItemsP n := by
  intro s l r u m hp hu hnm
  cases n with
  | zero => exact absurd hp (by simp [parseItems])
  | succ nn =>
  cases m with
  | zero => omega
  | succ mm =>
  have hnm' : nn ≤ mm := by omega
  simp only [parseItems] at hp ⊢
  cases hv : parseVal nn s with
  | none => rw [hv] at hp; exact absurd hp (by simp)
  | some p =>
  obtain ⟨v, rv⟩ := p
  simp only [hv] at hp
  rw [ihV nn (by omega) s v rv u mm hv hu hnm']
  cases hsk : skipWs rv with
  | nil => rw [hsk] at hp; exact absurd hp (by simp)
  | cons c2 t2 =>
  simp only [hsk] at hp
  simp only [skipWs_append_of_cons hsk u]
  by_cases hc : c2 = ','
  · rw [if_pos hc] at hp ⊢
    obtain ⟨⟨l0, r0⟩, hp0, hmk⟩ := Option.map_eq_some'.mp hp
    injection hmk with hA hB
    subst hA
    subst hB
    rw [ihI nn (by omega) t2 l0 r0 u mm hp0 hu hnm']
    rfl
  · rw [if_neg hc] at hp ⊢
    by_cases hb : c2 = ']'
    · rw [if_pos hb] at hp ⊢
      injection hp with hpair
      injection hpair with hA hB
      subst hA
      subst hB
      rfl
    · rw [if_neg hb] at hp
      exact absurd hp (by simp)

theorem extMembers_step (n : Nat)
    (ihV : ∀ k, k < n → ExtValP k) (ihM : ∀ k, k < n → ExtMembersP k) :
    ExtMembersP n := by
  intro s l r u m hp hu hnm
  cases n with
  | zero => exact absurd hp (by simp [parseMembers])
  | succ nn =>
  cases m with
  | zero => omega
  | succ mm =>
  have hnm' : nn ≤ mm := by omega
  simp only [parseMembers] at hp ⊢
  cases hsk : skipWs s with
  | nil => rw [hsk] at hp; exact absurd hp (by simp)
  | cons c t =>
  simp only [hsk] at hp
  simp only [skipWs_append_of_cons hsk u]
  by_cases hc1 : c = '"'
  · rw [if_pos hc1] at hp ⊢
    cases hsb : parseStrBody t with
    | none => rw [hsb] at hp; exact absurd hp (by simp)
    | some pk =>
    obtain ⟨k, r1⟩ := pk
    simp only [hsb] at hp
    rw [parseStrBody_append t u hsb]
    cases hsk1 : skipWs r1 with
    | nil => rw [hsk1] at hp; exact absurd hp (by simp)
    | cons c2 r2 =>
    simp only [hsk1] at hp
    simp only [skipWs_append_of_cons hsk1 u]
    by_cases hc2 : c2 = ':'
    · rw [if_pos hc2] at hp ⊢
      cases hv : parseVal nn r2 with
      | none => rw [hv] at hp; exact absurd hp (by simp)
      | some pv =>
      obtain ⟨v, r3⟩ := pv
      simp only [hv] at hp
      rw [ihV nn (by omega) r2 v r3 u mm hv hu hnm']
      cases hsk3 : skipWs r3 with
      | nil => rw [hsk3] at hp; exact absurd hp (by simp)
      | cons c3 r4 =>
      simp only [hsk3] at hp
      simp only [skipWs_append_of_cons hsk3 u]
      by_cases hc3 : c3 = ','
      · rw [if_pos hc3] at hp ⊢
        obtain ⟨⟨l0, r0⟩, hp0, hmk⟩ := Option.map_eq_some'.mp hp
        injection hmk with hA hB
        subst hA
        subst hB
        rw [ihM nn (by omega) r4 l0 r0 u mm hp0 hu hnm']
        rfl
      · rw [if_neg hc3] at hp ⊢
        by_cases hb : c3 = '}'
        · rw [if_pos hb] at hp ⊢
          injection hp with hpair
          injection hpair with hA hB
          subst hA
          subst hB
          rfl
        · rw [if_neg hb] at hp
          exact absurd hp (by simp)
    · rw [if_neg hc2] at hp
      exact absurd hp (by simp)
  · rw [if_neg hc1] at hp
    exact absurd hp (by simp)

theorem ext_all : ∀ n, ExtValP n ∧ ExtItemsP n ∧ ExtMembersP n := by
  intro n
  induction n using Nat.strong_induction_on with
  | _ n ih =>
    exact ⟨extVal_step n (fun k hk => (ih k hk).2.1) (fun k hk => (ih k hk).2.2),
      extItems_step n (fun k hk => (ih k hk).1) (fun k hk => (ih k hk).2.1),
      extMembers_step n (fun k hk => (ih k hk).1) (fun k hk => (ih k hk).2.2)⟩

theorem skipWs_nil_of_append {s : List Char} (h : skipWs s = []) (u : List Char) :
    skipWs (s ++ u) = skipWs u := skipWs_append_of_nil h u

theorem parseVal_cons_ws (n : Nat) (c : Char) (s : List Char) (h : isJsonWs c = true) :
    parseVal (n + 1) (c :: s) = parseVal (n + 1) s := by
  simp only [parseVal]
  rw [show skipWs (c :: s) = skipWs s from by simp [skipWs, List.dropWhile_cons, h]]

/-! ### Decimal rendering lemmas, for the serialization round-trip. -/

theorem natToCharsCore_zero (f : Nat) (acc : List Char) : natToCharsCore f 0 acc = acc := by
  cases f with
  | zero => rfl
  | succ g =>
    simp only [natToCharsCore]
    rw [if_pos trivial]

theorem natToCharsCore_acc : ∀ (f n : Nat) (acc : List Char),
    natToCharsCore f n acc = natToCharsCore f n [] ++ acc
  | 0, _, _ => by simp [natToCharsCore]
  | f + 1, n, acc => by
    by_cases hn : n = 0
    · subst hn
      rw [natToCharsCore_zero, natToCharsCore_zero]
      simp
    · simp only [natToCharsCore]
      rw [if_neg hn, if_neg hn]
      rw [natToCharsCore_acc f (n / 10) (digitChar (n % 10) :: acc),
          natToCharsCore_acc f (n / 10) [digitChar (n % 10)]]
      simp

theorem natToCharsCore_fuel : ∀ (f g n : Nat) (acc : List Char), n ≤ f → n ≤ g →
    natToCharsCore f n acc = natToCharsCore g n acc
  | _, _, 0, acc, _, _ => by rw [natToCharsCore_zero, natToCharsCore_zero]
  | 0, _, n + 1, _, hf, _ => by omega
  | _ + 1, 0, n + 1, _, _, hg => by omega
  | f + 1, g + 1, n + 1, acc, hf, hg => by
    simp only [natToCharsCore]
    rw [if_neg (Nat.succ_ne_zero n), if_neg (Nat.succ_ne_zero n)]
    exact natToCharsCore_fuel f g ((n + 1) / 10) _ (by omega) (by omega)

theorem natToChars_unfold (n : Nat) (h : 0 < n) :
    natToChars n = (if n < 10 then [] else natToChars (n / 10)) ++ [digitChar (n % 10)] := by
  obtain ⟨f, rfl⟩ : ∃ f, n = f + 1 := ⟨n - 1, by omega⟩
  unfold natToChars
  rw [if_neg (Nat.succ_ne_zero f)]
  simp only [natToCharsCore]
  rw [if_neg (Nat.succ_ne_zero f)]
  rw [natToCharsCore_acc]
  by_cases h10 : f + 1 < 10
  · rw [if_pos h10]
    have hq : (f + 1) / 10 = 0 := by omega
    rw [hq, natToCharsCore_zero]
  · rw [if_neg h10]
    have hq : ¬((f + 1) / 10 = 0) := by omega
    rw [if_neg hq]
    rw [natToCharsCore_fuel f ((f + 1) / 10) ((f + 1) / 10) [] (by omega) (by omega)]

theorem digitChar_isDigit (d : Nat) (h : d < 10) : (digitChar d).isDigit = true := by
  interval_cases d <;> decide

theorem digitChar_toNat (d : Nat) (h : d < 10) : (digitChar d).toNat = 48 + d := by
  interval_cases d <;> decide

theorem digitChar_ne_zero (d : Nat) (h0 : 0 < d) (h : d < 10) : digitChar d ≠ '0' := by
  interval_cases d <;> decide

theorem natToChars_ne_nil (n : Nat) : natToChars n ≠ [] := by
  by_cases h : n = 0
  · subst h
    simp [natToChars]
  · rw [natToChars_unfold n (by omega)]
    simp

theorem natToChars_all_digits : ∀ n, ∀ c ∈ natToChars n, c.isDigit = true := by
  intro n
  induction n using Nat.strong_induction_on with
  | _ n ih =>
    by_cases h : n = 0
    · subst h
      intro c hc
      simp [natToChars] at hc
      subst hc
      decide
    · rw [natToChars_unfold n (by omega)]
      intro c hc
      rcases List.mem_append.mp hc with hm | hm
      · by_cases h10 : n < 10
        · rw [if_pos h10] at hm
          simp at hm
        · rw [if_neg h10] at hm
          exact ih (n / 10) (by omega) c hm
      · simp at hm
        subst hm
        exact digitChar_isDigit (n % 10) (by omega)

theorem natToChars_head_ne_zero : ∀ n, 0 < n → (natToChars n).headD ' ' ≠ '0' := by
  intro n
  induction n using Nat.strong_induction_on with
  | _ n ih =>
    intro h
    rw [natToChars_unfold n h]
    by_cases h10 : n < 10
    · rw [if_pos h10]
      simp only [List.nil_append, List.headD_cons]
      have hmod : n % 10 = n := by omega
      rw [hmod]
      exact digitChar_ne_zero n h h10
    · rw [if_neg h10]
      obtain ⟨c0, t0, hsh⟩ : ∃ c0 t0, natToChars (n / 10) = c0 :: t0 := by
        cases hh : natToChars (n / 10) with
        | nil => exact absurd hh (natToChars_ne_nil _)
        | cons a b => exact ⟨a, b, rfl⟩
      rw [hsh]
      simp only [List.cons_append, List.headD_cons]
      have hih := ih (n / 10) (by omega) (by omega)
      rw [hsh] at hih
      simpa using hih

theorem digitsToNat_natToChars : ∀ n, digitsToNat 0 (natToChars n) = n := by
  intro n
  induction n using Nat.strong_induction_on with
  | _ n ih =>
    by_cases h : n = 0
    · subst h
      decide
    · rw [natToChars_unfold n (by omega)]
      unfold digitsToNat
      rw [List.foldl_append]
      by_cases h10 : n < 10
      · rw [if_pos h10]
        simp only [List.foldl_nil, List.foldl_cons]
        unfold digitVal
        rw [digitChar_toNat (n % 10) (by omega)]
        omega
      · rw [if_neg h10]
        have hih := ih (n / 10) (by omega)
        unfold digitsToNat at hih
        rw [hih]
        simp only [List.foldl_cons, List.foldl_nil]
        unfold digitVal
        rw [digitChar_toNat (n % 10) (by omega)]
        omega

theorem parseNat_natToChars (n : Nat) (rest : List Char) (hr : delimOk rest = true) :
    parseNat (natToChars n ++ rest) = some (n, rest) := by
  have hall : ∀ c ∈ natToChars n, c.isDigit = true := natToChars_all_digits n
  obtain ⟨h1, h2⟩ := takeWhile_append_of_all (natToChars n) rest hall
  obtain ⟨hu1, hu2⟩ := takeWhile_delim rest hr
  have hzz : ¬(2 ≤ (natToChars n).length ∧ (natToChars n).headD ' ' = '0') := by
    rintro ⟨hlen, hhead⟩
    by_cases h : n = 0
    · subst h
      simp [natToChars] at hlen
    · exact natToChars_head_ne_zero n (by omega) hhead
  unfold parseNat
  rw [h1, hu1, List.append_nil, h2, hu2]
  rw [if_neg (by simpa using natToChars_ne_nil n)]
  rw [if_neg hzz]
  rw [digitsToNat_natToChars]

theorem natToChars_cons (n : Nat) :
    ∃ c t, natToChars n = c :: t ∧ c.isDigit = true := by
  cases hh : natToChars n with
  | nil => exact absurd hh (natToChars_ne_nil n)
  | cons a b =>
    refine ⟨a, b, rfl, ?_⟩
    exact natToChars_all_digits n a (hh ▸ List.mem_cons_self a b)

theorem digit_not_ws (c : Char) (h : c.isDigit = true) : isJsonWs c = false := by
  simp only [isJsonWs, Bool.or_eq_false_iff, beq_eq_false_iff_ne]
  refine ⟨⟨⟨?_, ?_⟩, ?_⟩, ?_⟩ <;> (rintro rfl; exact absurd h (by decide))

theorem digit_ne_structural (c : Char) (h : c.isDigit = true) :
    c ≠ ']' ∧ c ≠ '}' ∧ c ≠ '"' ∧ c ≠ 't' ∧ c ≠ 'f' ∧ c ≠ 'n' ∧ c ≠ '-'
      ∧ c ≠ '[' ∧ c ≠ '{' := by
  refine ⟨?_, ?_, ?_, ?_, ?_, ?_, ?_, ?_, ?_⟩ <;> (rintro rfl; exact absurd h (by decide))

/-! ### Whitespace and plain-string lemmas for the round-trip. -/

theorem skipWs_cons_of_not (c : Char) (s : List Char) (h : isJsonWs c = false) :
    skipWs (c :: s) = c :: s := by
  simp [skipWs, List.dropWhile_cons, h]

theorem skipWs_append_ws {w : List Char} (hw : allWsL w = true) (s : List Char) :
    skipWs (w ++ s) = skipWs s := by
  induction w with
  | nil => rfl
  | cons a as ih =>
    simp only [allWsL, List.all_cons, Bool.and_eq_true] at hw
    rw [List.cons_append, skipWs_cons_of_ws a _ hw.1]
    exact ih (by simp [allWsL, hw.2])

theorem skipWs_allWs_append {w : List Char} (hw : allWsL w = true) {c : Char}
    (hc : isJsonWs c = false) (t : List Char) : skipWs (w ++ (c :: t)) = c :: t := by
  rw [skipWs_append_ws hw, skipWs_cons_of_not c t hc]

theorem allWsL_pad (d : Nat) : allWsL (pad d) = true := by
  simp only [allWsL, pad, List.all_eq_true]
  intro a ha
  rw [List.eq_of_mem_replicate ha]
  decide

theorem allWsL_nl_pad (d : Nat) : allWsL ('\n' :: pad d) = true := by
  have h := allWsL_pad d
  simp only [allWsL, List.all_cons] at h ⊢
  rw [h]
  decide

theorem ws_not_digit (c : Char) (h : isJsonWs c = true) : c.isDigit = false := by
  simp only [isJsonWs, Bool.or_eq_true, beq_iff_eq] at h
  rcases h with ((rfl | rfl) | rfl) | rfl <;> decide

theorem delimOk_allWs_append {w2 : List Char} (hw : allWsL w2 = true) {c : Char}
    (hc : c.isDigit = false) (rest : List Char) : delimOk (w2 ++ (c :: rest)) = true := by
  cases w2 with
  | nil =>
    simp only [List.nil_append, delimOk, hc]
    rfl
  | cons a as =>
    simp only [allWsL, List.all_cons, Bool.and_eq_true] at hw
    simp only [List.cons_append, delimOk]
    rw [ws_not_digit a hw.1]
    rfl

theorem stripPre_self_append : ∀ (p u : List Char), stripPre p (p ++ u) = some u
  | [], _ => rfl
  | c :: ps, u => by
    simp only [List.cons_append, stripPre]
    rw [if_pos trivial]
    exact stripPre_self_append ps u

theorem plainChar_spec (c : Char) (h : plainChar c = true) :
    c ≠ '"' ∧ c ≠ '\\' ∧ ¬(c.toNat < 32) := by
  simp only [plainChar, Bool.and_eq_true, Bool.not_eq_true', beq_eq_false_iff_ne,
    decide_eq_false_iff_not] at h
  exact ⟨h.1.1, h.1.2, h.2⟩

theorem escChar_plain (c : Char) (h : plainChar c = true) : escChar c = [c] := by
  obtain ⟨h1, h2, h3⟩ := plainChar_spec c h
  unfold escChar
  rw [if_neg h1, if_neg h2,
    if_neg (fun hc => h3 (by rw [hc]; decide)),
    if_neg (fun hc => h3 (by rw [hc]; decide)),
    if_neg (fun hc => h3 (by rw [hc]; decide)),
    if_neg (fun hc => h3 (by rw [hc]; decide)),
    if_neg (fun hc => h3 (by rw [hc]; decide)),
    if_neg h3]

theorem escStr_cons (c : Char) (cs : List Char) :
    escStr (c :: cs) = escChar c ++ escStr cs := rfl

theorem escStr_plain : ∀ (s : List Char), plainStr s = true → escStr s = s
  | [], _ => rfl
  | c :: cs, h => by
    simp only [plainStr, List.all_cons, Bool.and_eq_true] at h
    rw [escStr_cons, escChar_plain c h.1,
      escStr_plain cs (by simp [plainStr, h.2])]
    rfl

theorem parseStrBody_plain : ∀ (s : List Char), plainStr s = true → ∀ (rest : List Char),
    parseStrBody (s ++ ('"' :: rest)) = some (s, rest)
  | [], _, rest => by
    rw [List.nil_append, parseStrBody.eq_def]
    simp only [eq_self_iff_true, if_true]
  | c :: cs, h, rest => by
    simp only [plainStr, List.all_cons, Bool.and_eq_true] at h
    obtain ⟨h1, h2, h3⟩ := plainChar_spec c h.1
    rw [List.cons_append, parseStrBody.eq_def]
    simp only [if_neg h1, if_neg h2, if_neg h3]
    rw [parseStrBody_plain cs (by simp [plainStr, h.2]) rest]
    rfl

theorem encVal_head (v : Json) (d : Nat) :
    ∃ c t, encVal v d = c :: t ∧ isJsonWs c = false ∧ c ≠ ']' ∧ c ≠ '}' := by
  cases v with
  | str s => exact ⟨'"', escStr s ++ ['"'], rfl, by decide, by decide, by decide⟩
  | num i =>
    cases i with
    | ofNat m =>
      obtain ⟨c, t, hct, hdig⟩ := natToChars_cons m
      obtain ⟨hb1, hb2, _⟩ := digit_ne_structural c hdig
      exact ⟨c, t, hct, digit_not_ws c hdig, hb1, hb2⟩
    | negSucc m =>
      exact ⟨'-', natToChars (m + 1), rfl, by decide, by decide, by decide⟩
  | bool b =>
    cases b with
    | true => exact ⟨'t', "rue".data, rfl, by decide, by decide, by decide⟩
    | false => exact ⟨'f', "alse".data, rfl, by decide, by decide, by decide⟩
  | null => exact ⟨'n', "ull".data, rfl, by decide, by decide, by decide⟩
  | arr l =>
    cases l with
    | nil => exact ⟨'[', [']'], rfl, by decide, by decide, by decide⟩
    | cons v vs =>
      exact ⟨'[', '\n' :: (pad (d + 2) ++ (encItems (v :: vs) (d + 2) ++
        ('\n' :: (pad d ++ [']'])))), rfl, by decide, by decide, by decide⟩
  | obj l =>
    cases l with
    | nil => exact ⟨'{', ['}'], rfl, by decide, by decide, by decide⟩
    | cons m ms =>
      obtain ⟨k, vv⟩ := m
      exact ⟨'{', '\n' :: (pad (d + 2) ++ (encMembers ((k, vv) :: ms) (d + 2) ++
        ('\n' :: (pad d ++ ['}'])))), rfl, by decide, by decide, by decide⟩

/-! ### Round-trip step lemmas: serialized valid values parse back. -/

theorem rtVal_step (n : Nat)
    (ihI : ∀ k, k < n → RtItemsP k) (ihM : ∀ k, k < n → RtMembersP k) :
    RtValP n := by
  intro v d w rest hv hw hr hb
  cases n with
  | zero => omega
  | succ nn =>
  cases v with
  | str s =>
    have hps : plainStr s = true := by simpa [validJ] using hv
    have hsk : skipWs (w ++ (encVal (Json.str s) d ++ rest))
        = '"' :: ((escStr s ++ ['"']) ++ rest) :=
      skipWs_allWs_append hw (by decide) _
    simp only [parseVal, hsk]
    rw [if_pos trivial]
    rw [show (escStr s ++ ['"']) ++ rest = s ++ ('"' :: rest) from by
      rw [escStr_plain s hps]
      simp]
    rw [parseStrBody_plain s hps rest]
    rfl
  | num i =>
    cases i with
    | ofNat m =>
      obtain ⟨c, t, hct, hdig⟩ := natToChars_cons m
      obtain ⟨hb1, hb2, hb3, hb4, hb5, hb6, hb7, hb8, hb9⟩ := digit_ne_structural c hdig
      have hsk : skipWs (w ++ (encVal (Json.num (Int.ofNat m)) d ++ rest))
          = c :: (t ++ rest) := by
        rw [show encVal (Json.num (Int.ofNat m)) d = c :: t from hct]
        rw [List.cons_append]
        exact skipWs_allWs_append hw (digit_not_ws c hdig) (t ++ rest)
      simp only [parseVal, hsk]
      rw [if_neg hb3, if_neg hb4, if_neg hb5, if_neg hb6, if_neg hb7, if_pos hdig]
      rw [show c :: (t ++ rest) = (c :: t) ++ rest from rfl]
      rw [show (c :: t : List Char) = natToChars m from hct.symm]
      rw [parseNat_natToChars m rest hr]
      rfl
    | negSucc m =>
      have hsk : skipWs (w ++ (encVal (Json.num (Int.negSucc m)) d ++ rest))
          = '-' :: (natToChars (m + 1) ++ rest) :=
        skipWs_allWs_append hw (by decide) _
      simp only [parseVal, hsk]
      rw [if_neg (by decide), if_neg (by decide), if_neg (by decide), if_neg (by decide)]
      rw [if_pos trivial]
      rw [parseNat_natToChars (m + 1) rest hr]
      rfl
  | bool b =>
    cases b with
    | true =>
      have hsk : skipWs (w ++ (encVal (Json.bool true) d ++ rest))
          = 't' :: ("rue".data ++ rest) :=
        skipWs_allWs_append hw (by decide) _
      simp only [parseVal, hsk]
      rw [if_neg (by decide)]
      rw [if_pos trivial]
      rw [stripPre_self_append "rue".data rest]
      rfl
    | false =>
      have hsk : skipWs (w ++ (encVal (Json.bool false) d ++ rest))
          = 'f' :: ("alse".data ++ rest) :=
        skipWs_allWs_append hw (by decide) _
      simp only [parseVal, hsk]
      rw [if_neg (by decide), if_neg (by decide)]
      rw [if_pos trivial]
      rw [stripPre_self_append "alse".data rest]
      rfl
  | null =>
    have hsk : skipWs (w ++ (encVal Json.null d ++ rest))
        = 'n' :: ("ull".data ++ rest) :=
      skipWs_allWs_append hw (by decide) _
    simp only [parseVal, hsk]
    rw [if_neg (by decide), if_neg (by decide), if_neg (by decide)]
    rw [if_pos trivial]
    rw [stripPre_self_append "ull".data rest]
    rfl
  | arr l =>
    cases l with
    | nil =>
      have hsk : skipWs (w ++ (encVal (Json.arr []) d ++ rest)) = '[' :: (']' :: rest) :=
        skipWs_allWs_append hw (by decide) _
      simp only [parseVal, hsk]
      rw [if_neg (by decide), if_neg (by decide), if_neg (by decide), if_neg (by decide),
        if_neg (by decide), if_neg (by decide)]
      rw [if_pos trivial]
      simp only [skipWs_cons_of_not ']' rest (by decide)]
      rw [if_pos trivial]
    | cons v vs =>
      obtain ⟨c2, t2, hct2, hcw2, hbr1, hbr2⟩ := encVal_head v (d + 2)
      have hva : validA (v :: vs) = true := by simpa [validJ] using hv
      have hsk : skipWs (w ++ (encVal (Json.arr (v :: vs)) d ++ rest))
          = '[' :: (('\n' :: (pad (d + 2) ++ (encItems (v :: vs) (d + 2) ++
              ('\n' :: (pad d ++ [']']))))) ++ rest) :=
        skipWs_allWs_append hw (by decide) _
      simp only [parseVal, hsk]
      rw [if_neg (by decide), if_neg (by decide), if_neg (by decide), if_neg (by decide),
        if_neg (by decide), if_neg (by decide)]
      rw [if_pos trivial]
      have hsk2 : skipWs (('\n' :: (pad (d + 2) ++ (encItems (v :: vs) (d + 2) ++
              ('\n' :: (pad d ++ [']']))))) ++ rest)
          = c2 :: (t2 ++ (encItemsSep vs (d + 2) ++ ('\n' :: (pad d ++ (']' :: rest))))) := by
        rw [show encItems (v :: vs) (d + 2)
            = encVal v (d + 2) ++ encItemsSep vs (d + 2) from rfl, hct2]
        simp only [List.cons_append, List.append_assoc, List.singleton_append]
        rw [skipWs_cons_of_ws '\n' _ (by decide)]
        rw [skipWs_append_ws (allWsL_pad (d + 2))]
        exact skipWs_cons_of_not c2 _ hcw2
      simp only [hsk2]
      rw [if_neg hbr1]
      have hlen : (encVal (Json.arr (v :: vs)) d).length
          = (encItems (v :: vs) (d + 2)).length + (2 * d + 6) := by
        rw [show encVal (Json.arr (v :: vs)) d = '[' :: '\n' :: (pad (d + 2) ++
          (encItems (v :: vs) (d + 2) ++ ('\n' :: (pad d ++ [']'])))) from rfl]
        simp only [List.length_cons, List.length_append, pad, List.length_replicate,
          List.length_nil]
        omega
      rw [show c2 :: (t2 ++ (encItemsSep vs (d + 2) ++ ('\n' :: (pad d ++ (']' :: rest)))))
          = [] ++ (encItems (v :: vs) (d + 2) ++ (('\n' :: pad d) ++ (']' :: rest))) from by
        rw [List.nil_append,
          show encItems (v :: vs) (d + 2) = encVal v (d + 2) ++ encItemsSep vs (d + 2) from rfl,
          hct2]
        simp only [List.cons_append, List.append_assoc]]
      rw [(ihI nn (by omega)) (v :: vs) (d + 2) [] ('\n' :: pad d) rest (by simp) hva rfl
        (allWsL_nl_pad d) (by simp only [List.length_nil]; omega)]
      rfl
  | obj l =>
    cases l with
    | nil =>
      have hsk : skipWs (w ++ (encVal (Json.obj []) d ++ rest)) = '{' :: ('}' :: rest) :=
        skipWs_allWs_append hw (by decide) _
      simp only [parseVal, hsk]
      rw [if_neg (by decide), if_neg (by decide), if_neg (by decide), if_neg (by decide),
        if_neg (by decide), if_neg (by decide), if_neg (by decide)]
      rw [if_pos trivial]
      simp only [skipWs_cons_of_not '}' rest (by decide)]
      rw [if_pos trivial]
    | cons mm ms =>
      obtain ⟨k, vv⟩ := mm
      have hvm : validM ((k, vv) :: ms) = true := by simpa [validJ] using hv
      have hsk : skipWs (w ++ (encVal (Json.obj ((k, vv) :: ms)) d ++ rest))
          = '{' :: (('\n' :: (pad (d + 2) ++ (encMembers ((k, vv) :: ms) (d + 2) ++
              ('\n' :: (pad d ++ ['}']))))) ++ rest) :=
        skipWs_allWs_append hw (by decide) _
      simp only [parseVal, hsk]
      rw [if_neg (by decide), if_neg (by decide), if_neg (by decide), if_neg (by decide),
        if_neg (by decide), if_neg (by decide), if_neg (by decide)]
      rw [if_pos trivial]
      have hsk2 : skipWs (('\n' :: (pad (d + 2) ++ (encMembers ((k, vv) :: ms) (d + 2) ++
              ('\n' :: (pad d ++ ['}']))))) ++ rest)
          = '"' :: (((escStr k ++ ['"']) ++ (':' :: ' ' :: (encVal vv (d + 2) ++
              encMembersSep ms (d + 2)))) ++ ('\n' :: (pad d ++ ('}' :: rest)))) := by
        rw [show encMembers ((k, vv) :: ms) (d + 2) = '"' :: ((escStr k ++ ['"']) ++
          (':' :: ' ' :: (encVal vv (d + 2) ++ encMembersSep ms (d + 2)))) from rfl]
        simp only [List.cons_append, List.append_assoc, List.singleton_append]
        rw [skipWs_cons_of_ws '\n' _ (by decide)]
        rw [skipWs_append_ws (allWsL_pad (d + 2))]
        exact skipWs_cons_of_not '"' _ (by decide)
      simp only [hsk2]
      rw [if_neg (by decide)]
      have hlen : (encVal (Json.obj ((k, vv) :: ms)) d).length
          = (encMembers ((k, vv) :: ms) (d + 2)).length + (2 * d + 6) := by
        rw [show encVal (Json.obj ((k, vv) :: ms)) d = '{' :: '\n' :: (pad (d + 2) ++
          (encMembers ((k, vv) :: ms) (d + 2) ++ ('\n' :: (pad d ++ ['}'])))) from rfl]
        simp only [List.length_cons, List.length_append, pad, List.length_replicate,
          List.length_nil]
        omega
      rw [show '"' :: (((escStr k ++ ['"']) ++ (':' :: ' ' :: (encVal vv (d + 2) ++
              encMembersSep ms (d + 2)))) ++ ('\n' :: (pad d ++ ('}' :: rest))))
          = [] ++ (encMembers ((k, vv) :: ms) (d + 2) ++
              (('\n' :: pad d) ++ ('}' :: rest))) from by
        rw [List.nil_append, show encMembers ((k, vv) :: ms) (d + 2) = '"' :: ((escStr k ++
          ['"']) ++ (':' :: ' ' :: (encVal vv (d + 2) ++ encMembersSep ms (d + 2)))) from rfl]
        simp only [List.cons_append, List.append_assoc]]
      rw [(ihM nn (by omega)) ((k, vv) :: ms) (d + 2) [] ('\n' :: pad d) rest (by simp) hvm rfl
        (allWsL_nl_pad d) (by simp only [List.length_nil]; omega)]
      rfl

theorem rtItems_step (n : Nat)
    (ihV : ∀ k, k < n → RtValP k) (ihI : ∀ k, k < n → RtItemsP k) :
    RtItemsP n := by
  intro l d w w2 rest hne hva hw hw2 hb
  cases n with
  | zero => omega
  | succ nn =>
  cases l with
  | nil => exact absurd rfl hne
  | cons v vs =>
  simp only [validA, Bool.and_eq_true] at hva
  obtain ⟨c1, t1, hct1, hcw1, hcb1, hcb2⟩ := encVal_head v d
  have hlenv : 0 < (encVal v d).length := by rw [hct1]; simp
  cases vs with
  | nil =>
    have hlen : (encItems [v] d).length = (encVal v d).length := by
      rw [show encItems [v] d = encVal v d ++ encItemsSep [] d from rfl]
      simp [encItemsSep]
    simp only [parseItems]
    rw [show encItems [v] d ++ (w2 ++ (']' :: rest))
        = encVal v d ++ (w2 ++ (']' :: rest)) from by
      rw [show encItems [v] d = encVal v d ++ encItemsSep [] d from rfl]
      simp [encItemsSep]]
    rw [ihV nn (by omega) v d w (w2 ++ (']' :: rest)) hva.1 hw
      (delimOk_allWs_append hw2 (by decide) rest) (by omega)]
    simp only [skipWs_allWs_append hw2 (show isJsonWs ']' = false from by decide) rest]
    rw [if_neg (by decide)]
    rw [if_pos trivial]
  | cons v2 vs2 =>
    have hlen : (encItems (v :: v2 :: vs2) d).length
        = (encVal v d).length + ((encItems (v2 :: vs2) d).length + d + 2) := by
      rw [show encItems (v :: v2 :: vs2) d
          = encVal v d ++ (',' :: '\n' :: (pad d ++ encItems (v2 :: vs2) d)) from rfl]
      simp only [List.length_append, List.length_cons, pad, List.length_replicate]
      omega
    simp only [parseItems]
    rw [show encItems (v :: v2 :: vs2) d ++ (w2 ++ (']' :: rest))
        = encVal v d ++ (encItemsSep (v2 :: vs2) d ++ (w2 ++ (']' :: rest))) from by
      rw [show encItems (v :: v2 :: vs2) d
          = encVal v d ++ encItemsSep (v2 :: vs2) d from rfl, List.append_assoc]]
    rw [ihV nn (by omega) v d w (encItemsSep (v2 :: vs2) d ++ (w2 ++ (']' :: rest))) hva.1 hw
      rfl (by omega)]
    have hsk : skipWs (encItemsSep (v2 :: vs2) d ++ (w2 ++ (']' :: rest)))
        = ',' :: ('\n' :: ((pad d ++ encItems (v2 :: vs2) d) ++ (w2 ++ (']' :: rest)))) :=
      skipWs_cons_of_not ',' _ (by decide)
    simp only [hsk]
    rw [if_pos trivial]
    rw [show '\n' :: ((pad d ++ encItems (v2 :: vs2) d) ++ (w2 ++ (']' :: rest)))
        = ('\n' :: pad d) ++ (encItems (v2 :: vs2) d ++ (w2 ++ (']' :: rest))) from by
      simp only [List.cons_append, List.append_assoc]]
    rw [ihI nn (by omega) (v2 :: vs2) d ('\n' :: pad d) w2 rest (by simp) hva.2
      (allWsL_nl_pad d) hw2
      (by simp only [List.length_cons, pad, List.length_replicate]; omega)]
    rfl

theorem rtMembers_step (n : Nat)
    (ihV : ∀ k, k < n → RtValP k) (ihM : ∀ k, k < n → RtMembersP k) :
    RtMembersP n := by
  intro l d w w2 rest hne hvm hw hw2 hb
  cases n with
  | zero => omega
  | succ nn =>
  cases l with
  | nil => exact absurd rfl hne
  | cons mm ms =>
  obtain ⟨k, vv⟩ := mm
  simp only [validM, Bool.and_eq_true] at hvm
  obtain ⟨c1, t1, hct1, hcw1, hcb1, hcb2⟩ := encVal_head vv d
  have hlenv : 0 < (encVal vv d).length := by rw [hct1]; simp
  have hlenm : (encMembers ((k, vv) :: ms) d).length
      = (escStr k).length + (encVal vv d).length + (encMembersSep ms d).length + 4 := by
    rw [show encMembers ((k, vv) :: ms) d = '"' :: ((escStr k ++ ['"']) ++
      (':' :: ' ' :: (encVal vv d ++ encMembersSep ms d))) from rfl]
    simp only [List.length_cons, List.length_append, List.length_nil]
    omega
  simp only [parseMembers]
  have hsk : skipWs (w ++ (encMembers ((k, vv) :: ms) d ++ (w2 ++ ('}' :: rest))))
      = '"' :: (((escStr k ++ ['"']) ++ (':' :: ' ' :: (encVal vv d ++ encMembersSep ms d)))
          ++ (w2 ++ ('}' :: rest))) :=
    skipWs_allWs_append hw (by decide) _
  simp only [hsk]
  rw [if_pos trivial]
  have hpk : parseStrBody (((escStr k ++ ['"']) ++ (':' :: ' ' :: (encVal vv d ++
        encMembersSep ms d))) ++ (w2 ++ ('}' :: rest)))
      = some (k, ':' :: ' ' :: (encVal vv d ++ (encMembersSep ms d ++
          (w2 ++ ('}' :: rest))))) := by
    rw [escStr_plain k hvm.1.1]
    rw [show ((k ++ ['"']) ++ (':' :: ' ' :: (encVal vv d ++ encMembersSep ms d)))
          ++ (w2 ++ ('}' :: rest))
        = k ++ ('"' :: (':' :: ' ' :: (encVal vv d ++ (encMembersSep ms d ++
            (w2 ++ ('}' :: rest)))))) from by
      simp only [List.cons_append, List.append_assoc, List.singleton_append,
        List.nil_append]]
    exact parseStrBody_plain k hvm.1.1 _
  simp only [hpk]
  have hsk1 : skipWs (':' :: ' ' :: (encVal vv d ++ (encMembersSep ms d ++
        (w2 ++ ('}' :: rest)))))
      = ':' :: (' ' :: (encVal vv d ++ (encMembersSep ms d ++ (w2 ++ ('}' :: rest))))) :=
    skipWs_cons_of_not ':' _ (by decide)
  simp only [hsk1]
  rw [if_pos trivial]
  rw [show (' ' :: (encVal vv d ++ (encMembersSep ms d ++ (w2 ++ ('}' :: rest)))) : List Char)
      = [' '] ++ (encVal vv d ++ (encMembersSep ms d ++ (w2 ++ ('}' :: rest)))) from rfl]
  have hdel : delimOk (encMembersSep ms d ++ (w2 ++ ('}' :: rest))) = true := by
    cases ms with
    | nil => exact delimOk_allWs_append hw2 (by decide) rest
    | cons mm2 ms2 =>
      obtain ⟨k2, v2⟩ := mm2
      rfl
  rw [ihV nn (by omega) vv d [' '] (encMembersSep ms d ++ (w2 ++ ('}' :: rest))) hvm.1.2 rfl
    hdel (by simp only [List.length_cons, List.length_nil]; omega)]
  cases ms with
  | nil =>
    have hsk3 : skipWs (encMembersSep [] d ++ (w2 ++ ('}' :: rest))) = '}' :: rest :=
      skipWs_allWs_append hw2 (by decide) rest
    simp only [hsk3]
    rw [if_neg (by decide)]
    rw [if_pos trivial]
  | cons mm2 ms2 =>
    obtain ⟨k2, v2⟩ := mm2
    have hsk3 : skipWs (encMembersSep ((k2, v2) :: ms2) d ++ (w2 ++ ('}' :: rest)))
        = ',' :: ('\n' :: ((pad d ++ encMembers ((k2, v2) :: ms2) d) ++
            (w2 ++ ('}' :: rest)))) :=
      skipWs_cons_of_not ',' _ (by decide)
    simp only [hsk3]
    rw [if_pos trivial]
    rw [show '\n' :: ((pad d ++ encMembers ((k2, v2) :: ms2) d) ++ (w2 ++ ('}' :: rest)))
        = ('\n' :: pad d) ++ (encMembers ((k2, v2) :: ms2) d ++ (w2 ++ ('}' :: rest))) from by
      simp only [List.cons_append, List.append_assoc]]
    have hlen2 : (encMembersSep ((k2, v2) :: ms2) d).length
        = (encMembers ((k2, v2) :: ms2) d).length + d + 2 := by
      rw [show encMembersSep ((k2, v2) :: ms2) d
          = ',' :: '\n' :: (pad d ++ encMembers ((k2, v2) :: ms2) d) from rfl]
      simp only [List.length_cons, List.length_append, pad, List.length_replicate]
      omega
    rw [ihM nn (by omega) ((k2, v2) :: ms2) d ('\n' :: pad d) w2 rest (by simp) hvm.2
      (allWsL_nl_pad d) hw2
      (by simp only [List.length_cons, pad, List.length_replicate]; omega)]
    rfl

theorem rt_all : ∀ n, RtValP n ∧ RtItemsP n ∧ RtMembersP n := by
  intro n
  induction n using Nat.strong_induction_on with
  | _ n ih =>
    exact ⟨rtVal_step n (fun k hk => (ih k hk).2.1) (fun k hk => (ih k hk).2.2),
      rtItems_step n (fun k hk => (ih k hk).1) (fun k hk => (ih k hk).2.1),
      rtMembers_step n (fun k hk => (ih k hk).1) (fun k hk => (ih k hk).2.2)⟩

theorem parseTop_json_dumps (v : Json) (hv : validJ v = true) :
    parseTop (json_dumps v) = some v := by
  have h := (rt_all ((json_dumps v).length + 1)).1 v 0 [] [] hv rfl rfl
    (by simp only [json_dumps, List.length_nil]; omega)
  rw [show ([] ++ (encVal v 0 ++ []) : List Char) = json_dumps v from by
    simp [json_dumps]] at h
  unfold parseTop
  simp only [h]
  rw [if_pos (show skipWs ([] : List Char) = [] from rfl)]

theorem validJ_lineItemJson (it : LineItem)
    (h1 : plainStr it.description = true) (h2 : plainStr it.unit_of_measure = true) :
    validJ (lineItemJson it) = true := by
  simp only [lineItemJson, validJ, validM]
  rw [h1, h2]
  decide

theorem validA_map_lineItem : ∀ (l : List LineItem),
    l.all (fun it => plainStr it.description && plainStr it.unit_of_measure) = true →
    validA (l.map lineItemJson) = true
  | [], _ => rfl
  | it :: l, h => by
    simp only [List.all_cons, Bool.and_eq_true] at h
    simp only [List.map_cons, validA, Bool.and_eq_true]
    exact ⟨validJ_lineItemJson it h.1.1 h.1.2, validA_map_lineItem l h.2⟩

theorem validRec_validJ (r : InvoiceRecord) (h : validRec r = true) :
    validJ (recJson r) = true := by
  simp only [validRec, Bool.and_eq_true] at h
  obtain ⟨⟨⟨⟨⟨⟨⟨⟨⟨⟨⟨⟨⟨⟨⟨⟨⟨⟨⟨⟨h1, h2⟩, h3⟩, h4⟩, h5⟩, h6⟩, h7⟩, h8⟩, h9⟩, h10⟩, h11⟩, h12⟩, h13⟩, h14⟩, h15⟩, h16⟩, h17⟩, h18⟩, h19⟩, h20⟩, h21⟩ := h
  simp only [recJson, validJ, validM]
  rw [h1, h2, h3, h4, h5, h6, h7, h8, h9, h10, h11, h12, h13, h14, h15, h16,
    h18, h19, h20, h21, validA_map_lineItem r.line_items h17]
  decide

/-! ### Claim theorems -/

/-- C4: fence-stripping round-trip — for every JSON text that parses
successfully, running the client's response handling on the text wrapped
in a `` ```json `` fence line and a trailing `` ``` `` fence yields exactly
the value obtained by parsing the unwrapped text. -/
theorem claim4_fence_roundtrip (t : List Char) (v : Json)
    (h : parseTop t = some v) :
    extract_invoice_data (.ok ("```json\n".data ++ (t ++ "\n```".data))) = some v := by
  unfold parseTop at h
  cases hpv : parseVal (t.length + 1) t with
  | none => rw [hpv] at h; exact absurd h (by simp)
  | some p =>
  obtain ⟨v0, rest⟩ := p
  simp only [hpv] at h
  by_cases hws : skipWs rest = []
  case neg => rw [if_neg hws] at h; exact absurd h (by simp)
  rw [if_pos hws] at h
  injection h with hv0
  subst hv0
  have hsplit : "```json\n".data ++ (t ++ "\n```".data)
      = btick :: (("``json\n".data ++ (t ++ "\n``".data)) ++ [btick]) := by
    show btick :: btick :: btick :: 'j' :: 's' :: 'o' :: 'n' :: '\n' ::
        (t ++ ('\n' :: btick :: btick :: btick :: []))
      = btick :: ((btick :: btick :: 'j' :: 's' :: 'o' :: 'n' :: '\n' ::
        (t ++ ('\n' :: btick :: btick :: []))) ++ [btick])
    simp
  have hstrip : pyStrip ("```json\n".data ++ (t ++ "\n```".data))
      = "```json\n".data ++ (t ++ "\n```".data) := by
    rw [hsplit]
    exact pyStrip_keeps_ends btick btick _ rfl rfl
  have hpre : hasPre fenceJson ("```json\n".data ++ (t ++ "\n```".data)) = true := rfl
  have hdrop : ("```json\n".data ++ (t ++ "\n```".data)).drop 7
      = '\n' :: (t ++ "\n```".data) := rfl
  have hW2 : '\n' :: (t ++ "\n```".data)
      = ('\n' :: (t ++ ['\n'])) ++ fenceTicks := by
    show '\n' :: (t ++ ('\n' :: btick :: btick :: btick :: []))
        = ('\n' :: (t ++ ['\n'])) ++ (btick :: btick :: btick :: [])
    simp
  show parseTop (stripFences ("```json\n".data ++ (t ++ "\n```".data))) = some v0
  unfold stripFences
  rw [hstrip]
  rw [show fenceDropLead ("```json\n".data ++ (t ++ "\n```".data))
      = '\n' :: (t ++ "\n```".data) from by
    unfold fenceDropLead
    rw [hpre, if_pos rfl, hdrop]]
  rw [hW2]
  rw [show fenceDropTrail (('\n' :: (t ++ ['\n'])) ++ fenceTicks)
      = '\n' :: (t ++ ['\n']) from by
    unfold fenceDropTrail
    rw [if_pos (hasSuf_append_self fenceTicks _)]
    rw [List.length_append]
    rw [show ('\n' :: (t ++ ['\n'])).length + fenceTicks.length - 3
        = ('\n' :: (t ++ ['\n'])).length from by
      rw [show fenceTicks.length = 3 from rfl]
      omega]
    exact List.take_left _ _]
  unfold parseTop
  rw [show ('\n' :: (t ++ ['\n'])).length + 1 = (t.length + 2) + 1 from by
    simp]
  rw [parseVal_cons_ws (t.length + 2) '\n' (t ++ ['\n']) (by decide)]
  have h23 : (t.length + 2) + 1 = t.length + 3 := by omega
  rw [h23]
  have hext := (ext_all (t.length + 1)).1 t v0 rest ['\n'] (t.length + 3) hpv rfl
    (by omega)
  simp only [hext]
  rw [skipWs_append_of_nil hws]
  rw [if_pos (show skipWs ['\n'] = [] from rfl)]

/-- C4 witness: a concrete fenced response parses to the same value as
its unfenced JSON text. -/
theorem claim4_witness :
    extract_invoice_data (.ok ("```json\n".data
        ++ ("\x7b\"total\": 5\x7d".data ++ "\n```".data)))
      = some (Json.obj [("total".data, Json.num 5)]) :=
  claim4_fence_roundtrip "\x7b\"total\": 5\x7d".data
    (Json.obj [("total".data, Json.num 5)]) rfl

/-- C2: for every sequence of uploaded items processed by the process-all
loop, after the loop finishes the success counter plus the failure
counter equals the number of items — each item contributes exactly one
increment to exactly one of the two counters. -/
theorem claim2_batch_counters (items : List (List Char × ItemOutcome)) (store0 : Store) :
    (processAll items ⟨store0, 0, 0⟩).successful_extractions
      + (processAll items ⟨store0, 0, 0⟩).failed_extractions = items.length := by
  simpa using processAll_counts items ⟨store0, 0, 0⟩

theorem keysOf_map_pairs (l : List (List Char × Except ApiError (List Char) × Json)) :
    keysOf (l.map (fun t => (t.1, t.2.2))) = l.map (fun t => t.1) := by
  induction l with
  | nil => rfl
  | cons t ts ih =>
    simp only [keysOf, List.map_cons] at ih ⊢
    rw [ih]

/-- C3: a batch in which exactly one item fails and the others extract to
truthy records (all filenames distinct, store initially empty) is never
aborted: it reports N-1 successes and 1 failure, and the final store holds
exactly the successful records in order, with no entry under the failed
item's name. -/
theorem claim3_single_failure_isolated
    (pre post : List (List Char × Except ApiError (List Char) × Json))
    (badName : List Char) (badOut : ItemOutcome)
    (hgood : ∀ t ∈ pre ++ post,
      extract_invoice_data t.2.1 = some t.2.2 ∧ pyTruthy t.2.2 = true)
    (hbad : itemFails badOut = true)
    (hnd : (badName :: (pre ++ post).map (fun t => t.1)).Nodup) :
    processAll (pre.map (fun t => (t.1, ItemOutcome.response t.2.1))
        ++ [(badName, badOut)]
        ++ post.map (fun t => (t.1, ItemOutcome.response t.2.1))) ⟨[], 0, 0⟩
      = ⟨pre.map (fun t => (t.1, t.2.2)) ++ post.map (fun t => (t.1, t.2.2)),
         pre.length + post.length, 1⟩
    ∧ lookupS (pre.map (fun t => (t.1, t.2.2)) ++ post.map (fun t => (t.1, t.2.2)))
        badName = none := by
  obtain ⟨hbn, hppnd⟩ := List.nodup_cons.mp hnd
  rw [List.map_append] at hppnd hbn
  obtain ⟨hndpre, hndpost, hdisj⟩ := List.nodup_append.mp hppnd
  have hA := processAll_good_run pre ⟨[], 0, 0⟩
    (fun t ht => hgood t (List.mem_append_left _ ht))
    (fun t _ hm => by simp [keysOf] at hm) hndpre
  have hkeysA : keysOf (pre.map (fun t => (t.1, t.2.2))) = pre.map (fun t => t.1) :=
    keysOf_map_pairs pre
  have hB := processAll_good_run post
    ⟨pre.map (fun t => (t.1, t.2.2)), pre.length, 1⟩
    (fun t ht => hgood t (List.mem_append_right _ ht))
    (fun t ht hm => by
      rw [hkeysA] at hm
      exact hdisj hm (List.mem_map_of_mem _ ht))
    hndpost
  constructor
  · simp only [processAll, List.foldl_append] at hA hB ⊢
    simp at hA hB
    rw [hA]
    rw [show List.foldl batchStep
        ⟨pre.map (fun t => (t.1, t.2.2)), pre.length, 0⟩ [(badName, badOut)]
        = ⟨pre.map (fun t => (t.1, t.2.2)), pre.length, 1⟩ from by
      simp only [List.foldl_cons, List.foldl_nil]
      rw [batchStep_of_fails _ _ _ hbad]]
    rw [hB]
  · apply lookupS_of_not_mem
    intro hm
    apply hbn
    have hkeys : keysOf (pre.map (fun t => (t.1, t.2.2)) ++ post.map (fun t => (t.1, t.2.2)))
        = pre.map (fun t => t.1) ++ post.map (fun t => t.1) := by
      simp only [keysOf, List.map_append]
      rw [show List.map Prod.fst (List.map (fun t => (t.1, t.2.2)) pre)
          = keysOf (List.map (fun t => (t.1, t.2.2)) pre) from rfl,
        show List.map Prod.fst (List.map (fun t => (t.1, t.2.2)) post)
          = keysOf (List.map (fun t => (t.1, t.2.2)) post) from rfl,
        keysOf_map_pairs, keysOf_map_pairs]
    rw [hkeys] at hm
    exact hm

/-- C3 witness: a concrete three-item batch whose middle item fails to
parse yields two successes, one failure, and a store holding exactly the
two successful entries. -/
theorem claim3_witness :
    processAll [("a.jpg".data, ItemOutcome.response (.ok "\x7b\"total\": 5\x7d".data)),
        ("b.jpg".data, ItemOutcome.response (.ok "oops".data)),
        ("c.jpg".data, ItemOutcome.response (.ok "[1]".data))] ⟨[], 0, 0⟩
      = ⟨[("a.jpg".data, Json.obj [("total".data, Json.num 5)]),
          ("c.jpg".data, Json.arr [Json.num 1])], 2, 1⟩
    ∧ lookupS [("a.jpg".data, Json.obj [("total".data, Json.num 5)]),
        ("c.jpg".data, Json.arr [Json.num 1])] "b.jpg".data = none := by
  have h := claim3_single_failure_isolated
    [("a.jpg".data, Except.ok "\x7b\"total\": 5\x7d".data,
      Json.obj [("total".data, Json.num 5)])]
    [("c.jpg".data, Except.ok "[1]".data, Json.arr [Json.num 1])]
    "b.jpg".data (ItemOutcome.response (.ok "oops".data))
    (by
      intro t ht
      rcases (by simpa using ht) with rfl | rfl
      · exact ⟨rfl, rfl⟩
      · exact ⟨rfl, rfl⟩)
    rfl
    (by decide)
  exact h

/-- C5: the extraction boundary never lets a failure escape — a raised
transport or auth error from the inference call, and a response text whose
fence-stripped form does not parse as JSON, both make
`extract_invoice_data` return `None` to its caller. -/
theorem claim5_errors_return_none :
    (∀ e : ApiError, extract_invoice_data (.error e) = none)
    ∧ (∀ text : List Char, parseTop (stripFences text) = none →
        extract_invoice_data (.ok text) = none) :=
  ⟨fun _ => rfl, fun _ h => h⟩

/-- C5 witness: a transport error and a non-JSON response both come back
as `None`. -/
theorem claim5_witness :
    extract_invoice_data (.error ApiError.transport) = none
    ∧ extract_invoice_data (.ok "not json at all".data) = none :=
  ⟨claim5_errors_return_none.1 ApiError.transport,
   claim5_errors_return_none.2 "not json at all".data rfl⟩

/-- C6: the single-item path overwrites — processing the same filename
twice stores the second record under that name — and any sequence of
single-item or batch operations preserves at-most-one-entry-per-name
(no duplicate keys) in the store. -/
theorem claim6_last_write_wins (store : Store) (name : List Char)
    (r1 r2 : Except ApiError (List Char)) (v2 : Json)
    (singles : List (List Char × ItemOutcome))
    (items : List (List Char × ItemOutcome)) (bst : BatchState)
    (h2 : extract_invoice_data r2 = some v2) (htr : pyTruthy v2 = true)
    (hnd : (keysOf store).Nodup) (hnb : (keysOf bst.store).Nodup) :
    lookupS (processOne (processOne store name (.response r1)) name (.response r2)) name
      = some v2
    ∧ (keysOf (singles.foldl (fun s p => processOne s p.1 p.2) store)).Nodup
    ∧ (keysOf (processAll items bst).store).Nodup := by
  refine ⟨?_, nodup_keys_processOne_fold singles store hnd,
    nodup_keys_processAll items bst hnb⟩
  simp only [processOne, h2]
  rw [if_pos htr]
  exact lookupS_put_self _ name v2

/-- C6 witness: processing `a.jpg` twice leaves the second record in the
store, and the concrete operation sequences keep the keys duplicate-free. -/
theorem claim6_witness :
    lookupS (processOne (processOne [] "a.jpg".data
        (.response (.ok "\x7b\"v\": 1\x7d".data))) "a.jpg".data
        (.response (.ok "\x7b\"v\": 2\x7d".data))) "a.jpg".data
      = some (Json.obj [("v".data, Json.num 2)])
    ∧ (keysOf ([("a.jpg".data, ItemOutcome.response (.ok "\x7b\"v\": 3\x7d".data))].foldl
        (fun s p => processOne s p.1 p.2) [])).Nodup
    ∧ (keysOf (processAll [("a.jpg".data,
        ItemOutcome.response (.ok "\x7b\"v\": 4\x7d".data))] ⟨[], 0, 0⟩).store).Nodup :=
  claim6_last_write_wins [] "a.jpg".data
    (.ok "\x7b\"v\": 1\x7d".data) (.ok "\x7b\"v\": 2\x7d".data)
    (Json.obj [("v".data, Json.num 2)])
    [("a.jpg".data, ItemOutcome.response (.ok "\x7b\"v\": 3\x7d".data))]
    [("a.jpg".data, ItemOutcome.response (.ok "\x7b\"v\": 4\x7d".data))]
    ⟨[], 0, 0⟩ rfl rfl (by decide) (by decide)

/-- C7 counterexample: generating the summary CSV from an empty store does
not produce the header row — the output is not the header line (it is
empty), refuting the claim that the header is always present. -/
theorem claim7_counterexample : summaryCsv [] ≠ csvHeaderLine := by
  decide

/-- C7 amended: generating the summary CSV from an empty store produces
empty output — zero data rows and no header row — and does not raise an
error (the construction is total). -/
theorem claim7_empty_store : summaryCsv [] = [] := rfl

/-- C9: when the response parses to a Python-falsy value (such as `{}`),
the batch loop counts the item as a failure and leaves the store
untouched, even though the extraction client returned the parsed value
rather than an error. -/
theorem claim9_falsy_counts_failure (st : BatchState) (name : List Char)
    (resp : Except ApiError (List Char)) (v : Json)
    (hex : extract_invoice_data resp = some v) (hfalsy : pyTruthy v = false) :
    batchStep st (name, .response resp)
      = { st with failed_extractions := st.failed_extractions + 1 } := by
  simp only [batchStep, hex]
  rw [if_neg (by simp [hfalsy])]

/-- C9 witness: the empty object `{}` parses successfully, is falsy, and
its batch step increments only the failure counter. -/
theorem claim9_witness :
    extract_invoice_data (.ok "\x7b\x7d".data) = some (Json.obj [])
    ∧ batchStep ⟨[], 0, 0⟩ ("b.jpg".data, .response (.ok "\x7b\x7d".data))
      = ⟨[], 0, 1⟩ :=
  ⟨rfl, claim9_falsy_counts_failure ⟨[], 0, 0⟩ "b.jpg".data
    (.ok "\x7b\x7d".data) (Json.obj []) rfl rfl⟩

/-- C1 counterexample: the response `{"invoice": {}}` is a successful,
truthy extraction that would be stored, yet it lacks every declared field
below the envelope — refuting the claim that every declared field is
present after any successful extraction. -/
theorem claim1_counterexample :
    extract_invoice_data (.ok "\x7b\"invoice\": \x7b\x7d\x7d".data)
      = some (Json.obj [("invoice".data, Json.obj [])])
    ∧ pyTruthy (Json.obj [("invoice".data, Json.obj [])]) = true
    ∧ containsAllDeclared (Json.obj [("invoice".data, Json.obj [])]) = false :=
  ⟨rfl, rfl, rfl⟩

/-- C1 amended: the client performs no schema validation — a successful
extraction returns exactly the parsed JSON of the fence-stripped response,
so a declared field is present precisely when the response supplies it; in
particular, a response that is the prompt's schema skeleton (every field
defaulted to empty string or zero) extracts to a record with every
declared field present. -/
theorem claim1_no_validation :
    (∀ (text : List Char) (v : Json),
      extract_invoice_data (.ok text) = some v → parseTop (stripFences text) = some v)
    ∧ extract_invoice_data (.ok (json_dumps invoice_schema)) = some invoice_schema
    ∧ containsAllDeclared invoice_schema = true :=
  ⟨fun _ _ h => h, rfl, rfl⟩

/-- C10: the leading fence is removed only for the exact seven-character
`` ```json `` tag — a response wrapped in a bare `` ``` `` fence keeps its
leading fence after the strip steps, the remaining text cannot parse, and
`extract_invoice_data` returns `None`. -/
theorem claim10_bare_fence (t : List Char) :
    hasPre fenceJson (pyStrip ("```\n".data ++ (t ++ "\n```".data))) = false
    ∧ extract_invoice_data (.ok ("```\n".data ++ (t ++ "\n```".data))) = none := by
  have hsplit : "```\n".data ++ (t ++ "\n```".data)
      = btick :: (("``\n".data ++ (t ++ "\n``".data)) ++ [btick]) := by
    show btick :: btick :: btick :: '\n' :: (t ++ ('\n' :: btick :: btick :: btick :: []))
        = btick :: ((btick :: btick :: '\n' :: (t ++ ('\n' :: btick :: btick :: []))) ++ [btick])
    simp
  have hstrip : pyStrip ("```\n".data ++ (t ++ "\n```".data))
      = "```\n".data ++ (t ++ "\n```".data) := by
    rw [hsplit]
    exact pyStrip_keeps_ends btick btick _ rfl rfl
  have hpre : hasPre fenceJson ("```\n".data ++ (t ++ "\n```".data)) = false := rfl
  have hW2 : "```\n".data ++ (t ++ "\n```".data)
      = ("```\n".data ++ (t ++ ['\n'])) ++ fenceTicks := by
    show btick :: btick :: btick :: '\n' :: (t ++ ('\n' :: btick :: btick :: btick :: []))
        = ((btick :: btick :: btick :: '\n' :: []) ++ (t ++ ['\n']))
          ++ (btick :: btick :: btick :: [])
    simp
  refine ⟨by rw [hstrip]; exact hpre, ?_⟩
  show parseTop (stripFences ("```\n".data ++ (t ++ "\n```".data))) = none
  unfold stripFences
  rw [hstrip]
  rw [show fenceDropLead ("```\n".data ++ (t ++ "\n```".data))
      = "```\n".data ++ (t ++ "\n```".data) from by
    unfold fenceDropLead
    rw [hpre]
    simp]
  rw [hW2]
  rw [show fenceDropTrail (("```\n".data ++ (t ++ ['\n'])) ++ fenceTicks)
      = "```\n".data ++ (t ++ ['\n']) from by
    unfold fenceDropTrail
    rw [if_pos (hasSuf_append_self fenceTicks _)]
    rw [List.length_append]
    rw [show ("```\n".data ++ (t ++ ['\n'])).length + fenceTicks.length - 3
        = ("```\n".data ++ (t ++ ['\n'])).length from by
      rw [show fenceTicks.length = 3 from rfl]
      omega]
    exact List.take_left _ _]
  exact parseTop_btick _

/-- C1 witness: the no-validation clause applied at the counterexample's
concrete response. -/
theorem claim1_witness :
    parseTop (stripFences "\x7b\"invoice\": \x7b\x7d\x7d".data)
      = some (Json.obj [("invoice".data, Json.obj [])]) :=
  claim1_no_validation.1 "\x7b\"invoice\": \x7b\x7d\x7d".data
    (Json.obj [("invoice".data, Json.obj [])]) rfl

/-- C8: JSON export round-trip and non-ASCII preservation. For every
invoice record built from valid field values (string fields are plain
text: arbitrary characters, including empty strings and non-ASCII text,
just no quote, backslash or control character; numbers arbitrary),
parsing the pretty-printed serialization produced by the export path
(`json.dumps(..., indent=2, ensure_ascii=False)`) returns exactly the
original record's JSON value; and for the record whose
`bill_from.company_name` is "Müller GmbH", the serialized text contains
"Müller GmbH" literally and contains no backslash escape at all. -/
theorem claim8_roundtrip :
    (∀ r : InvoiceRecord, validRec r = true →
      parseTop (json_dumps (recJson r)) = some (recJson r))
    ∧ containsSub "Müller GmbH".data (json_dumps (recJson muellerRecord)) = true
    ∧ containsSub ['\\'] (json_dumps (recJson muellerRecord)) = false := by
  refine ⟨fun r hr => parseTop_json_dumps (recJson r) (validRec_validJ r hr), ?_, ?_⟩
  · rfl
  · rfl

theorem claim8_witness :
    validRec muellerRecord = true ∧
    parseTop (json_dumps (recJson muellerRecord)) = some (recJson muellerRecord) :=
  ⟨rfl, claim8_roundtrip.1 muellerRecord rfl⟩

/-! ### Sanity checks: the models compute the Python ground truth. -/

example : parseTop "\x7b\"a\": 1\x7d".data =
    some (Json.obj [("a".data, Json.num 1)]) := rfl

example : parseTop " [1, -20, \"x\", true, null] ".data =
    some (Json.arr [Json.num 1, Json.num (-20), Json.str ['x'],
      Json.bool true, Json.null]) := rfl

example : parseTop "\x7b\x7d".data = some (Json.obj []) := rfl

example : parseTop "01".data = none := rfl

example : parseTop "\"a\\nb\"".data = some (Json.str ['a', '\n', 'b']) := rfl

example : parseTop "nope".data = none := rfl

example : json_dumps (Json.obj [("a".data, Json.num 1), ("b".data, Json.arr [])]) =
    "\x7b\n  \"a\": 1,\n  \"b\": []\n\x7d".data := rfl

example : json_dumps (Json.obj [("a".data,
    Json.obj [("b".data, Json.arr [Json.num 1, Json.obj [("c".data, Json.str ['x'])]]),
              ("d".data, Json.obj [])])]) =
    "\x7b\n  \"a\": \x7b\n    \"b\": [\n      1,\n      \x7b\n        \"c\": \"x\"\n      \x7d\n    ],\n    \"d\": \x7b\x7d\n  \x7d\n\x7d".data := rfl

example : json_dumps (Json.num (-5)) = "-5".data := rfl

example : json_dumps (Json.str "Müller".data) = "\"Müller\"".data := rfl

example : containsAllDeclared invoice_schema = true := rfl

example : summaryCsv [] = [] := rfl

example : summaryCsv [("a.jpg".data, Json.obj [("invoice".data, Json.obj [
    ("header".data, Json.obj [("invoice_number".data, Json.str "7".data),
      ("currency".data, Json.str "EUR".data)]),
    ("totals".data, Json.obj [("total_amount".data, Json.num 90)])])])] =
    ("filename,invoice_number,company,total_amount,currency,balance_due,invoice_date,due_date\r\n"
      ++ "a.jpg,7,,90,EUR,0,,\r\n").data := rfl

example : recJson emptyRecord = invoice_schema := rfl
